import Mathlib

/-!
Verification of the `aws-security-baseline` repository core:
the Terraform HCL block extractor (`audit/terraform_parser.py`),
the wizard input validators (`wizard/validators.py`),
the CLI config builder (`wizard/cli.py`),
and the tfvars generator / parser round-trip pipeline
(modelled from the spec; `wizard/generator.py` is absent from the sources,
only its tests and callers are present).

Text is modelled as `List Char`.  Python regular expressions used by the
code are embedded operationally (greedy character-class scans, which are
deterministic here because every character class is disjoint from the
literal that follows it).
-/

set_option maxHeartbeats 1000000
set_option synthInstance.maxHeartbeats 400000

abbrev Str := List Char

/-- Convert a Lean string literal to the `List Char` text representation. -/
def strL (s : String) : Str := s.toList

/-! ### Character classes (ASCII, as used by the Python patterns) -/

/-- Python `\s` (ASCII whitespace as produced by the wizard/terraform text). -/
def isPySpace (c : Char) : Bool :=
  c == ' ' || c == '\t' || c == '\n' || c == '\r' || c == '\x0b' || c == '\x0c'

/-- `[a-z]`. -/
def isLowerAZ (c : Char) : Bool := 'a' ≤ c && c ≤ 'z'

/-- `[A-Z]`. -/
def isUpperAZ (c : Char) : Bool := 'A' ≤ c && c ≤ 'Z'

/-- `[0-9]` (Python `\d`, modelled on its ASCII fragment). -/
def isDigitC (c : Char) : Bool := '0' ≤ c && c ≤ '9'

/-- `[a-zA-Z]`. -/
def isAlphaC (c : Char) : Bool := isLowerAZ c || isUpperAZ c

/-- `[a-zA-Z0-9]`. -/
def isAlnumC (c : Char) : Bool := isAlphaC c || isDigitC c

/-- Python `\w` restricted to ASCII: `[a-zA-Z0-9_]`. -/
def isWordChar (c : Char) : Bool := isAlnumC c || c == '_'

/-- `[a-z_]`, the first character of an HCL attribute key. -/
def isKeyStart (c : Char) : Bool := isLowerAZ c || c == '_'

/-- `[a-z0-9_]`, the later characters of an HCL attribute key. -/
def isKeyChar (c : Char) : Bool := isLowerAZ c || isDigitC c || c == '_'

/-- `[a-zA-Z0-9-]`, the environment-name character class. -/
def isEnvChar (c : Char) : Bool := isAlnumC c || c == '-'

/-! ### Greedy span (the deterministic core of the embedded regexes) -/

/-- Greedily split a text into its longest prefix of characters satisfying
`p` and the remaining suffix. -/
def spanP (p : Char → Bool) : Str → Str × Str
  | [] => ([], [])
  | c :: l =>
    if p c then
      let r := spanP p l
      (c :: r.1, r.2)
    else ([], c :: l)

theorem spanP_append_eq (p : Char → Bool) (l : Str) :
    (spanP p l).1 ++ (spanP p l).2 = l := by
  induction l with
  | nil => simp [spanP]
  | cons c l ih =>
    by_cases h : p c = true
    · simp [spanP, h, ih]
    · simp [spanP, h]

theorem spanP_all (p : Char → Bool) (l : Str) :
    ∀ c ∈ (spanP p l).1, p c = true := by
  induction l with
  | nil => simp [spanP]
  | cons c l ih =>
    by_cases h : p c = true
    · simpa [spanP, h] using ih
    · simp [spanP, h]

theorem spanP_of_all (p : Char → Bool) (a b : Str)
    (ha : ∀ c ∈ a, p c = true)
    (hb : ∀ c ∈ b.take 1, p c = false) :
    spanP p (a ++ b) = (a, b) := by
  induction a with
  | nil =>
    cases b with
    | nil => simp [spanP]
    | cons c b' => simp_all [spanP]
  | cons c a ih =>
    have hc : p c = true := ha c (by simp)
    simp only [List.cons_append, spanP, hc, if_pos]
    have := ih (fun d hd => ha d (by simp [hd]))
    simp [this]

/-! ### Strip (Python `str.strip()` on the whitespace the code meets) -/

/-- Python `str.strip()`: drop whitespace at both ends. -/
def stripStr (l : Str) : Str :=
  ((l.dropWhile isPySpace).reverse.dropWhile isPySpace).reverse

/-! ### Newline-based line splitting -/

/-- Split a text on `'\n'` characters (Python line-oriented processing). -/
def splitNl : Str → List Str
  | [] => [[]]
  | c :: rest =>
    if c = '\n' then [] :: splitNl rest
    else
      match splitNl rest with
      | [] => [[c]]
      | h :: t => (c :: h) :: t

/-- Join lines with `'\n'` separators. -/
def joinNl : List Str → Str
  | [] => []
  | [l] => l
  | l :: ls => l ++ '\n' :: joinNl ls

theorem splitNl_ne_nil (l : Str) : splitNl l ≠ [] := by
  cases l with
  | nil => simp [splitNl]
  | cons c rest =>
    by_cases h : c = '\n'
    · simp [splitNl, h]
    · simp only [splitNl, h, if_neg, ne_eq]
      cases splitNl rest <;> simp

theorem splitNl_no_nl (l : Str) (h : '\n' ∉ l) : splitNl l = [l] := by
  induction l with
  | nil => simp [splitNl]
  | cons c rest ih =>
    have hc : c ≠ '\n' := by intro hc; exact h (by simp [hc])
    have hr : '\n' ∉ rest := fun hm => h (by simp [hm])
    simp [splitNl, hc, ih hr]

theorem splitNl_append_cons (l rest : Str) (h : '\n' ∉ l) :
    splitNl (l ++ '\n' :: rest) = l :: splitNl rest := by
  induction l with
  | nil => simp [splitNl]
  | cons c l ih =>
    have hc : c ≠ '\n' := by intro hc; exact h (by simp [hc])
    have hl : '\n' ∉ l := fun hm => h (by simp [hm])
    simp only [List.cons_append, splitNl]
    simp only [hc, if_false, ite_false, List.append_eq]
    rw [ih hl]

theorem splitNl_joinNl (ls : List Str) (hne : ls ≠ [])
    (h : ∀ l ∈ ls, '\n' ∉ l) : splitNl (joinNl ls) = ls := by
  induction ls with
  | nil => exact absurd rfl hne
  | cons l ls ih =>
    cases ls with
    | nil => simpa [joinNl] using splitNl_no_nl l (h l (by simp))
    | cons l' ls' =>
      have h1 : '\n' ∉ l := h l (by simp)
      have h2 : ∀ x ∈ l' :: ls', '\n' ∉ x := fun x hx => h x (by simp [hx])
      simp only [joinNl]
      rw [splitNl_append_cons _ _ h1, ih (by simp) h2]

/-! ### Association lists modelling Python dicts -/

/-- Lookup in an association list (first matching key, as in a Python dict
whose keys are unique). -/
def alookup (k : Str) : List (Str × α) → Option α
  | [] => none
  | (k', v) :: rest => if k' = k then some v else alookup k rest

/-- Python `d[k] = v`: replace the value in place if the key is present,
otherwise append the new pair (insertion order is preserved). -/
def dictUpdate (m : List (Str × α)) (k : Str) (v : α) : List (Str × α) :=
  match m with
  | [] => [(k, v)]
  | (k', v') :: rest =>
    if k' = k then (k', v) :: rest else (k', v') :: dictUpdate rest k v

/-- Python `d.update(other)`: fold the right dict's pairs into the left. -/
def dictUpdateAll (m : List (Str × α)) (other : List (Str × α)) : List (Str × α) :=
  other.foldl (fun acc kv => dictUpdate acc kv.1 kv.2) m

/-- The value the last assignment to `k` in a pair list would leave behind. -/
def lastLookup (k : Str) : List (Str × α) → Option α
  | [] => none
  | (k', v) :: rest =>
    match lastLookup k rest with
    | some w => some w
    | none => if k' = k then some v else none

theorem alookup_dictUpdate_self (m : List (Str × α)) (k : Str) (v : α) :
    alookup k (dictUpdate m k v) = some v := by
  induction m with
  | nil => simp [dictUpdate, alookup]
  | cons p rest ih =>
    obtain ⟨k', v'⟩ := p
    by_cases h : k' = k
    · simp [dictUpdate, h, alookup]
    · simp [dictUpdate, h, alookup, ih]

theorem alookup_dictUpdate_ne (m : List (Str × α)) (k k' : Str) (v : α)
    (h : k' ≠ k) : alookup k (dictUpdate m k' v) = alookup k m := by
  induction m with
  | nil => simp [dictUpdate, alookup, h]
  | cons p rest ih =>
    obtain ⟨k'', v''⟩ := p
    by_cases h2 : k'' = k'
    · subst h2
      simp [dictUpdate, alookup, h]
    · by_cases h3 : k'' = k
      · subst h3
        simp [dictUpdate, h2, alookup]
      · simp [dictUpdate, h2, alookup, h3, ih]

theorem alookup_dictUpdateAll (m other : List (Str × α)) (k : Str) :
    alookup k (dictUpdateAll m other) =
      match lastLookup k other with
      | some v => some v
      | none => alookup k m := by
  induction other generalizing m with
  | nil => simp [dictUpdateAll, lastLookup]
  | cons p rest ih =>
    obtain ⟨k', v⟩ := p
    simp only [dictUpdateAll, List.foldl_cons] at *
    rw [ih]
    cases h : lastLookup k rest with
    | some w => simp [lastLookup, h]
    | none =>
      simp only [lastLookup, h]
      by_cases h2 : k' = k
      · subst h2; simp [alookup_dictUpdate_self]
      · simp [alookup_dictUpdate_ne _ _ _ _ h2, h2]

/-- Keys of an association list. -/
def dictKeys (m : List (Str × α)) : List Str := m.map Prod.fst

theorem dictKeys_dictUpdate (m : List (Str × α)) (k : Str) (v : α) :
    dictKeys (dictUpdate m k v) =
      if k ∈ dictKeys m then dictKeys m else dictKeys m ++ [k] := by
  induction m with
  | nil => simp [dictUpdate, dictKeys]
  | cons p rest ih =>
    obtain ⟨k', v'⟩ := p
    by_cases h : k' = k
    · subst h; simp [dictUpdate, dictKeys]
    · have hne : ¬(k = k') := fun hh => h hh.symm
      simp only [dictUpdate, h, if_neg, ne_eq, not_false_iff, dictKeys,
        List.map_cons, List.mem_cons]
      simp only [dictKeys] at ih
      by_cases h2 : k ∈ rest.map Prod.fst
      · simp [ih, h2, hne]
      · simp [ih, h2, hne]

theorem nodup_dictKeys_dictUpdate (m : List (Str × α)) (k : Str) (v : α)
    (h : (dictKeys m).Nodup) : (dictKeys (dictUpdate m k v)).Nodup := by
  rw [dictKeys_dictUpdate]
  by_cases hk : k ∈ dictKeys m
  · simpa [hk] using h
  · simpa [hk] using List.Nodup.append h (by simp) (by simpa using hk)

theorem alookup_append (k : Str) (a b : List (Str × α)) :
    alookup k (a ++ b) =
      match alookup k a with
      | some v => some v
      | none => alookup k b := by
  induction a with
  | nil => simp [alookup]
  | cons p rest ih =>
    obtain ⟨k', v⟩ := p
    by_cases h : k' = k
    · simp [alookup, h]
    · simp [alookup, h, ih]

theorem dictUpdate_of_absent (base : List (Str × α)) (k : Str) (v : α)
    (h : alookup k base = none) : dictUpdate base k v = base ++ [(k, v)] := by
  induction base with
  | nil => simp [dictUpdate]
  | cons q b ih =>
    obtain ⟨k', v'⟩ := q
    by_cases hk : k' = k
    · simp [alookup, hk] at h
    · simp only [alookup, hk, if_neg, ne_eq] at h
      simp [dictUpdate, hk, ih h]

theorem dictUpdateAll_fresh (base l : List (Str × α))
    (hfresh : ∀ k ∈ dictKeys l, alookup k base = none)
    (hnd : (dictKeys l).Nodup) :
    dictUpdateAll base l = base ++ l := by
  induction l generalizing base with
  | nil => simp [dictUpdateAll]
  | cons p rest ih =>
    obtain ⟨k, v⟩ := p
    have hkb : alookup k base = none := hfresh k (by simp [dictKeys])
    simp only [dictUpdateAll, List.foldl_cons] at *
    rw [dictUpdate_of_absent base k v hkb, ih (base ++ [(k, v)]) ?_ ?_]
    · simp
    · intro k' hk'
      have hne : k' ≠ k := by
        simp only [dictKeys, List.map_cons, List.nodup_cons] at hnd
        intro hkk; subst hkk
        exact hnd.1 (by simpa [dictKeys] using hk')
      have hb : alookup k' base = none := by
        refine hfresh k' ?_
        simp only [dictKeys, List.map_cons, List.mem_cons]
        right; simpa [dictKeys] using hk'
      rw [alookup_append, hb]
      simp [alookup, Ne.symm hne]
    · simp only [dictKeys, List.map_cons, List.nodup_cons] at hnd
      simpa [dictKeys] using hnd.2

/-- A present key of a nodup-key association list occurs exactly once. -/
theorem count_key_of_nodup (m : List (Str × α)) (k : Str)
    (hnd : (dictKeys m).Nodup) (h : alookup k m ≠ none) :
    (m.filter (fun p => p.1 = k)).length = 1 := by
  induction m with
  | nil => simp [alookup] at h
  | cons p rest ih =>
    obtain ⟨k', v⟩ := p
    simp only [dictKeys, List.map_cons, List.nodup_cons] at hnd
    by_cases hk : k' = k
    · subst hk
      have hfil : rest.filter (fun p => decide (p.1 = k')) = [] := by
        rw [List.filter_eq_nil_iff]
        intro q hq hc
        rw [decide_eq_true_iff] at hc
        exact hnd.1 (List.mem_map.mpr ⟨q, hq, hc⟩)
      rw [List.filter_cons]
      simp only [decide_eq_true_iff]
      simp [hfil]
    · have h2 : alookup k rest ≠ none := by
        simpa [alookup, hk] using h
      have hrec := ih (by simpa [dictKeys] using hnd.2) h2
      rw [List.filter_cons]
      simp only [decide_eq_true_iff]
      simp [hk, hrec]

/-! ## Wizard input validators (`wizard/validators.py`)

`validate_region` and `validate_environment` first reject falsy or
non-string inputs (`if not region or not isinstance(region, str)`),
then call `pattern.match` on the anchored patterns
`^[a-z]{2}-[a-z]+-\d+$` and `^[a-zA-Z0-9-]+$`.
In Python, `$` (without `re.MULTILINE`) matches at the end of the string
or just before a single terminal newline, so `pattern.match s` succeeds
exactly when the core pattern fully matches `s`, or fully matches `s`
with one final `'\n'` removed.  The region pattern is compiled without
`re.ASCII`, so its `\d` matches every Unicode decimal digit (general
category `Nd`), not only `[0-9]`; `isPyDigit` embeds that class by its
codepoint ranges (Unicode 14.0, the database of the CPython 3.11 that
runs this code).  The environment pattern's class is written out as
literal ASCII characters and has no such widening. -/

/-- A Python value passed to a validator: a string, `None`, or any other
non-string object. -/
inductive PyVal where
  | str (s : Str)
  | pyNone
  | other
deriving DecidableEq

/-- Full match of the ASCII reading `[a-z]{2}-[a-z]+-[0-9]+` of the region
pattern — the pattern as the spec's documentation and the wizard's own
test inputs write it — embedded as the deterministic greedy scan the regex
performs (each character class is disjoint from the following literal).
The claim C1 precondition quantifies over regions of this shape; the
compiled source pattern itself is wider, see `regionMatchPy`. -/
def regionMatchCore (s : Str) : Bool :=
  match s with
  | a :: b :: c :: rest =>
    isLowerAZ a && isLowerAZ b && (c == '-') &&
      (let p := spanP isLowerAZ rest
       decide (p.1 ≠ []) &&
         (match p.2 with
          | d :: ds => (d == '-') && decide (ds ≠ []) && ds.all isDigitC
          | _ => false))
  | _ => false

/-- The codepoint ranges of the Unicode general category `Nd` (decimal
digits), Unicode 14.0 — the class Python's `\d` matches when the pattern
is compiled, as in `validators.py`, without `re.ASCII`. -/
def ndRanges : List (Nat × Nat) :=
  [ (0x30, 0x39), (0x660, 0x669), (0x6f0, 0x6f9), (0x7c0, 0x7c9),
    (0x966, 0x96f), (0x9e6, 0x9ef), (0xa66, 0xa6f), (0xae6, 0xaef),
    (0xb66, 0xb6f), (0xbe6, 0xbef), (0xc66, 0xc6f), (0xce6, 0xcef),
    (0xd66, 0xd6f), (0xde6, 0xdef), (0xe50, 0xe59), (0xed0, 0xed9),
    (0xf20, 0xf29), (0x1040, 0x1049), (0x1090, 0x1099), (0x17e0, 0x17e9),
    (0x1810, 0x1819), (0x1946, 0x194f), (0x19d0, 0x19d9), (0x1a80, 0x1a89),
    (0x1a90, 0x1a99), (0x1b50, 0x1b59), (0x1bb0, 0x1bb9), (0x1c40, 0x1c49),
    (0x1c50, 0x1c59), (0xa620, 0xa629), (0xa8d0, 0xa8d9), (0xa900, 0xa909),
    (0xa9d0, 0xa9d9), (0xa9f0, 0xa9f9), (0xaa50, 0xaa59), (0xabf0, 0xabf9),
    (0xff10, 0xff19), (0x104a0, 0x104a9), (0x10d30, 0x10d39),
    (0x11066, 0x1106f), (0x110f0, 0x110f9), (0x11136, 0x1113f),
    (0x111d0, 0x111d9), (0x112f0, 0x112f9), (0x11450, 0x11459),
    (0x114d0, 0x114d9), (0x11650, 0x11659), (0x116c0, 0x116c9),
    (0x11730, 0x11739), (0x118e0, 0x118e9), (0x11950, 0x11959),
    (0x11c50, 0x11c59), (0x11d50, 0x11d59), (0x11da0, 0x11da9),
    (0x16a60, 0x16a69), (0x16ac0, 0x16ac9), (0x16b50, 0x16b59),
    (0x1d7ce, 0x1d7ff), (0x1e140, 0x1e149), (0x1e2f0, 0x1e2f9),
    (0x1e950, 0x1e959), (0x1fbf0, 0x1fbf9) ]

/-- Python's `\d` without `re.ASCII`: membership of the character's
codepoint in one of the `Nd` ranges. -/
def isPyDigit (c : Char) : Bool :=
  ndRanges.any fun p => decide (p.1 ≤ c.toNat) && decide (c.toNat ≤ p.2)

/-- Full match of the compiled core region pattern `[a-z]{2}-[a-z]+-\d+`
exactly as `validators.py` runs it: the digit run accepts every Unicode
decimal digit. -/
def regionMatchPy (s : Str) : Bool :=
  match s with
  | a :: b :: c :: rest =>
    isLowerAZ a && isLowerAZ b && (c == '-') &&
      (let p := spanP isLowerAZ rest
       decide (p.1 ≠ []) &&
         (match p.2 with
          | d :: ds => (d == '-') && decide (ds ≠ []) && ds.all isPyDigit
          | _ => false))
  | _ => false

/-- Full match of the core environment pattern `[a-zA-Z0-9-]+`. -/
def envMatchCore (s : Str) : Bool :=
  decide (s ≠ []) && s.all isEnvChar

/-- Python `$`: matching `pattern$` against `s` is a full core match of
`s`, or of `s` without a single terminal newline. -/
def dropFinalNl (s : Str) : Str :=
  if s.getLast? = some '\n' then s.dropLast else s

/-- `validators.validate_region`. -/
def validate_region : PyVal → Bool
  | .str s => if s = [] then false else regionMatchPy (dropFinalNl s)
  | _ => false

/-- `validators.validate_environment`. -/
def validate_environment : PyVal → Bool
  | .str s => if s = [] then false else envMatchCore (dropFinalNl s)
  | _ => false

/-- `validators.validate_tag_key`: non-string inputs are rejected, strings
must be non-empty after stripping whitespace. -/
def validate_tag_key : PyVal → Bool
  | .str s => decide (stripStr s ≠ [])
  | _ => false

/-- Declarative reading of the spec's anchored region pattern
`^[a-z]{2}-[a-z]+-[0-9]+$`: the entire string decomposes as two lowercase
letters, a hyphen, a non-empty lowercase word, a hyphen, and a non-empty
digit run. -/
def RegionFull (s : Str) : Prop :=
  ∃ a b mid num, s = a :: b :: '-' :: (mid ++ '-' :: num) ∧
    isLowerAZ a = true ∧ isLowerAZ b = true ∧
    mid ≠ [] ∧ (∀ c ∈ mid, isLowerAZ c = true) ∧
    num ≠ [] ∧ (∀ c ∈ num, isDigitC c = true)

/-- Declarative reading of the spec's anchored environment pattern
`^[a-zA-Z0-9-]+$`. -/
def EnvFull (s : Str) : Prop :=
  s ≠ [] ∧ ∀ c ∈ s, isEnvChar c = true

theorem RegionFull_chars (s : Str) (h : RegionFull s) :
    ∀ c ∈ s, (isLowerAZ c || isDigitC c || c == '-') = true := by
  obtain ⟨a, b, mid, num, hs, ha, hb, -, hmid, -, hnum⟩ := h
  subst hs
  intro c hc
  simp only [List.mem_cons, List.mem_append] at hc
  rcases hc with rfl | hc
  · simp [ha]
  rcases hc with rfl | hc
  · simp [hb]
  rcases hc with rfl | hc
  · simp
  rcases hc with hc | hc
  · simp [hmid c hc]
  rcases hc with rfl | hc
  · simp
  · simp [hnum c hc]

theorem regionMatchCore_iff (s : Str) : regionMatchCore s = true ↔ RegionFull s := by
  constructor
  · intro h
    cases s with
    | nil => simp [regionMatchCore] at h
    | cons a t =>
      cases t with
      | nil => simp [regionMatchCore] at h
      | cons b t2 =>
        cases t2 with
        | nil => simp [regionMatchCore] at h
        | cons c rest =>
          simp only [regionMatchCore, Bool.and_eq_true, beq_iff_eq,
            decide_eq_true_iff] at h
          obtain ⟨⟨⟨ha, hb⟩, hc⟩, hmidne, htail⟩ := h
          subst hc
          cases hsplit : (spanP isLowerAZ rest).2 with
          | nil => rw [hsplit] at htail; simp at htail
          | cons d ds =>
            rw [hsplit] at htail
            simp only [Bool.and_eq_true, beq_iff_eq, decide_eq_true_iff] at htail
            obtain ⟨⟨hd, hdsne⟩, hds⟩ := htail
            subst hd
            refine ⟨a, b, (spanP isLowerAZ rest).1, ds, ?_, ha, hb, hmidne,
              spanP_all _ _, hdsne, ?_⟩
            · have hr := spanP_append_eq isLowerAZ rest
              rw [hsplit] at hr
              rw [hr]
            · simpa [List.all_eq_true] using hds
  · rintro ⟨a, b, mid, num, rfl, ha, hb, hmidne, hmid, hnumne, hnum⟩
    have hspan : spanP isLowerAZ (mid ++ '-' :: num) = (mid, '-' :: num) :=
      spanP_of_all _ _ _ hmid (by intro c hc; simp at hc; subst hc; decide)
    simp [regionMatchCore, ha, hb, hspan, hmidne, hnumne, List.all_eq_true]
    exact hnum

theorem envMatchCore_iff (s : Str) : envMatchCore s = true ↔ EnvFull s := by
  simp [envMatchCore, EnvFull, List.all_eq_true]

theorem EnvFull_chars (s : Str) (h : EnvFull s) :
    ∀ c ∈ s, isEnvChar c = true := h.2

/-- Declarative reading of the compiled region pattern
`^[a-z]{2}-[a-z]+-\d+$` with Python's Unicode `\d`: the entire string
decomposes as two lowercase letters, a hyphen, a non-empty lowercase word,
a hyphen, and a non-empty run of Unicode decimal digits. -/
def RegionFullPy (s : Str) : Prop :=
  ∃ a b mid num, s = a :: b :: '-' :: (mid ++ '-' :: num) ∧
    isLowerAZ a = true ∧ isLowerAZ b = true ∧
    mid ≠ [] ∧ (∀ c ∈ mid, isLowerAZ c = true) ∧
    num ≠ [] ∧ (∀ c ∈ num, isPyDigit c = true)

theorem RegionFullPy_chars (s : Str) (h : RegionFullPy s) :
    ∀ c ∈ s, (isLowerAZ c || isPyDigit c || c == '-') = true := by
  obtain ⟨a, b, mid, num, hs, ha, hb, -, hmid, -, hnum⟩ := h
  subst hs
  intro c hc
  simp only [List.mem_cons, List.mem_append] at hc
  rcases hc with rfl | hc
  · simp [ha]
  rcases hc with rfl | hc
  · simp [hb]
  rcases hc with rfl | hc
  · simp
  rcases hc with hc | hc
  · simp [hmid c hc]
  rcases hc with rfl | hc
  · simp
  · simp [hnum c hc]

theorem regionMatchPy_iff (s : Str) : regionMatchPy s = true ↔ RegionFullPy s := by
  constructor
  · intro h
    cases s with
    | nil => simp [regionMatchPy] at h
    | cons a t =>
      cases t with
      | nil => simp [regionMatchPy] at h
      | cons b t2 =>
        cases t2 with
        | nil => simp [regionMatchPy] at h
        | cons c rest =>
          simp only [regionMatchPy, Bool.and_eq_true, beq_iff_eq,
            decide_eq_true_iff] at h
          obtain ⟨⟨⟨ha, hb⟩, hc⟩, hmidne, htail⟩ := h
          subst hc
          cases hsplit : (spanP isLowerAZ rest).2 with
          | nil => rw [hsplit] at htail; simp at htail
          | cons d ds =>
            rw [hsplit] at htail
            simp only [Bool.and_eq_true, beq_iff_eq, decide_eq_true_iff] at htail
            obtain ⟨⟨hd, hdsne⟩, hds⟩ := htail
            subst hd
            refine ⟨a, b, (spanP isLowerAZ rest).1, ds, ?_, ha, hb, hmidne,
              spanP_all _ _, hdsne, ?_⟩
            · have hr := spanP_append_eq isLowerAZ rest
              rw [hsplit] at hr
              rw [hr]
            · simpa [List.all_eq_true] using hds
  · rintro ⟨a, b, mid, num, rfl, ha, hb, hmidne, hmid, hnumne, hnum⟩
    have hspan : spanP isLowerAZ (mid ++ '-' :: num) = (mid, '-' :: num) :=
      spanP_of_all _ _ _ hmid (by intro c hc; simp at hc; subst hc; decide)
    simp [regionMatchPy, ha, hb, hspan, hmidne, hnumne, List.all_eq_true]
    exact hnum

theorem eq_dropLast_append_getLast? {α : Type} :
    ∀ (s : List α) (c : α), s.getLast? = some c → s = s.dropLast ++ [c] := by
  intro s
  induction s with
  | nil => intro c h; simp at h
  | cons a t ih =>
    intro c h
    cases t with
    | nil => simp_all
    | cons b t2 =>
      rw [List.getLast?_cons_cons] at h
      have h2 := ih c h
      calc a :: b :: t2 = a :: ((b :: t2).dropLast ++ [c]) := by rw [← h2]
        _ = (a :: b :: t2).dropLast ++ [c] := by simp

theorem pyDollarMatch_iff (core : Str → Bool) (Full : Str → Prop)
    (hiff : ∀ s, core s = true ↔ Full s)
    (hnonl : ∀ s, Full s → '\n' ∉ s) (s : Str) :
    core (dropFinalNl s) = true ↔
      (Full s ∨ ∃ t, s = t ++ ['\n'] ∧ Full t) := by
  by_cases hl : s.getLast? = some '\n'
  · have hsplit : s = s.dropLast ++ ['\n'] := eq_dropLast_append_getLast? s '\n' hl
    rw [dropFinalNl, if_pos hl, hiff]
    constructor
    · intro hfull
      exact Or.inr ⟨s.dropLast, hsplit, hfull⟩
    · rintro (hfull | ⟨t, ht, htf⟩)
      · exact absurd (hsplit ▸ List.mem_append_right _ (by simp)) (hnonl s hfull)
      · have h2 : t ++ ['\n'] = s.dropLast ++ ['\n'] := by rw [← ht, ← hsplit]
        have h3 := congrArg List.dropLast h2
        simp only [List.dropLast_concat] at h3
        rwa [← h3]
  · rw [dropFinalNl, if_neg hl, hiff]
    constructor
    · exact Or.inl
    · rintro (hfull | ⟨t, ht, htf⟩)
      · exact hfull
      · exact absurd (by rw [ht]; simp) hl

/-- Claim C10 (counterexample): `validate_region` returns `True` on the
string `"us-east-1\n"`, although the entire string matches neither the
documented anchored pattern `^[a-z]{2}-[a-z]+-[0-9]+$` nor the compiled
pattern with Python's Unicode `\d` (a newline is in no character class of
either).  Python's `$` also matches just before a terminal newline, so the
claimed "exactly when the entire string matches" fails; and the claimed
pattern itself is too narrow, since the compiled `\d` accepts every
Unicode decimal digit, e.g. `validate_region` also returns `True` on
`"us-east-٣"`, whose digit is outside `[0-9]`. -/
theorem validate_region_trailing_newline :
    validate_region (PyVal.str (strL "us-east-1\n")) = true ∧
    ¬ RegionFullPy (strL "us-east-1\n") ∧
    ¬ RegionFull (strL "us-east-1\n") ∧
    validate_region (PyVal.str (strL "us-east-٣")) = true ∧
    ¬ RegionFull (strL "us-east-٣") := by
  refine ⟨by decide, ?_, ?_, by decide, ?_⟩
  · intro h
    exact absurd (RegionFullPy_chars _ h '\n' (by decide)) (by decide)
  · intro h
    exact absurd (RegionFull_chars _ h '\n' (by decide)) (by decide)
  · intro h
    exact absurd (RegionFull_chars _ h '٣' (by decide)) (by decide)

/-- Claim C10 (amended): `validate_region` and `validate_environment` are
total over arbitrary inputs; they return `False` on `None`, the empty
string and every non-string value, and on a string `s` they return `True`
exactly when `s` — or `s` with a single terminal newline removed, which
Python's `$` anchor also accepts — wholly matches the compiled pattern:
`^[a-z]{2}-[a-z]+-\d+$` for regions, whose `\d`, compiled without
`re.ASCII`, accepts every Unicode decimal digit and not only `[0-9]`,
and the literal ASCII class `^[a-zA-Z0-9-]+$` for environments. -/
theorem validate_region_environment_totality (v : PyVal) :
    (validate_region v = true ↔
      ∃ s, v = PyVal.str s ∧
        (RegionFullPy s ∨ ∃ t, s = t ++ ['\n'] ∧ RegionFullPy t)) ∧
    (validate_environment v = true ↔
      ∃ s, v = PyVal.str s ∧
        (EnvFull s ∨ ∃ t, s = t ++ ['\n'] ∧ EnvFull t)) := by
  have hregion_nonl : ∀ s, RegionFullPy s → '\n' ∉ s := by
    intro s h hmem
    exact absurd (RegionFullPy_chars s h '\n' hmem) (by decide)
  have henv_nonl : ∀ s, EnvFull s → '\n' ∉ s := by
    intro s h hmem
    exact absurd (h.2 '\n' hmem) (by decide)
  cases v with
  | pyNone => constructor <;> simp [validate_region, validate_environment]
  | other => constructor <;> simp [validate_region, validate_environment]
  | str s =>
    by_cases hs : s = []
    · subst hs
      constructor
      · simp only [validate_region, if_pos]
        constructor
        · intro h; simp at h
        · rintro ⟨s', hv, h⟩
          obtain rfl : s' = [] := by simpa using hv.symm
          rcases h with h | ⟨t, ht, -⟩
          · obtain ⟨a, b, mid, num, habs, -⟩ := h
            simp at habs
          · simp at ht
      · simp only [validate_environment, if_pos]
        constructor
        · intro h; simp at h
        · rintro ⟨s', hv, h⟩
          obtain rfl : s' = [] := by simpa using hv.symm
          rcases h with h | ⟨t, ht, -⟩
          · exact absurd rfl h.1
          · simp at ht
    · constructor
      · rw [show validate_region (PyVal.str s) = regionMatchPy (dropFinalNl s) by
          simp [validate_region, hs]]
        rw [pyDollarMatch_iff _ _ regionMatchPy_iff hregion_nonl s]
        constructor
        · intro h; exact ⟨s, rfl, h⟩
        · rintro ⟨s', hv, h⟩
          obtain rfl : s = s' := by simpa using hv
          exact h
      · rw [show validate_environment (PyVal.str s) = envMatchCore (dropFinalNl s) by
          simp [validate_environment, hs]]
        rw [pyDollarMatch_iff _ _ envMatchCore_iff henv_nonl s]
        constructor
        · intro h; exact ⟨s, rfl, h⟩
        · rintro ⟨s', hv, h⟩
          obtain rfl : s = s' := by simpa using hv
          exact h

/-- Witness for the amended claim C10 at concrete inputs. -/
theorem validate_region_environment_totality_witness :
    validate_region (PyVal.str (strL "eu-west-2")) = true ∧
    validate_region (PyVal.str (strL "us-east-٣")) = true ∧
    validate_environment (PyVal.str (strL "dev")) = true := by
  refine ⟨?_, ?_, ?_⟩
  · exact (validate_region_environment_totality (PyVal.str (strL "eu-west-2"))).1.mpr
      ⟨strL "eu-west-2", rfl,
       Or.inl ⟨'e', 'u', strL "west", strL "2", by decide, by decide, by decide,
         by decide, by decide, by decide, by decide⟩⟩
  · exact (validate_region_environment_totality (PyVal.str (strL "us-east-٣"))).1.mpr
      ⟨strL "us-east-٣", rfl,
       Or.inl ⟨'u', 's', strL "east", strL "٣", by decide, by decide, by decide,
         by decide, by decide, by decide, by decide⟩⟩
  · exact (validate_region_environment_totality (PyVal.str (strL "dev"))).2.mpr
      ⟨strL "dev", rfl, Or.inl ⟨by decide, by decide⟩⟩

/-! ## Terraform HCL parser (`audit/terraform_parser.py`)

The parser scans for block-opening signatures with `re.finditer`, extracts
the block body with a brace-balance loop (`_extract_block_content`), and
extracts `key = value` attributes with the multiline/dotall regex
`^\s*([a-z_][a-z0-9_]*)\s*=\s*(.+?)(?=\n\s*[a-z_]|\n\s*\}|\Z)`.
All regexes are embedded operationally; the scans are run with explicit
fuel (any fuel of at least the text length plus one is exact, since every
match consumes at least one character). -/

/-- `[^"]`. -/
def notQuote (c : Char) : Bool := !(c == '"')

/-- Match a literal at the head of the input, returning the rest. -/
def matchLit : Str → Str → Option Str
  | [], s => some s
  | _ :: _, [] => none
  | c :: l, d :: s => if d = c then matchLit l s else none

theorem matchLit_append (l s : Str) : matchLit l (l ++ s) = some s := by
  induction l with
  | nil => simp [matchLit]
  | cons c l ih => simp [matchLit, ih]

/-- The brace-balance loop of `_extract_block_content`: the number of
characters consumed before the running depth returns to zero (all
remaining characters when it never does).  `depth` starts at 1, is
incremented on `{` and decremented on `}`. -/
def blockScan : Str → Nat → Nat
  | [], _ => 0
  | c :: rest, depth =>
    let d := if c = '{' then depth + 1 else if c = '}' then depth - 1 else depth
    1 + (if d = 0 then 0 else blockScan rest d)

/-- `_extract_block_content(content, start_pos)` on the suffix of the
content starting at `start_pos` (which is `match.end()`, hence positive at
every call site): the Python slice `content[start_pos : pos - 1]` is the
first `consumed - 1` characters of the suffix. -/
def extractBlockContent (suffix : Str) : Str :=
  suffix.take (blockScan suffix 1 - 1)

/-- The brace balance stays positive through the whole text: the block
opened before this suffix is never closed. -/
def neverCloses : Str → Nat → Bool
  | [], _ => true
  | c :: rest, depth =>
    let d := if c = '{' then depth + 1 else if c = '}' then depth - 1 else depth
    if d = 0 then false else neverCloses rest d

theorem blockScan_of_neverCloses (l : Str) (d : Nat)
    (h : neverCloses l d = true) : blockScan l d = l.length := by
  induction l generalizing d with
  | nil => simp [blockScan]
  | cons c rest ih =>
    simp only [neverCloses] at h
    simp only [blockScan]
    by_cases hd : (if c = '{' then d + 1 else if c = '}' then d - 1 else d) = 0
    · rw [if_pos hd] at h
      exact absurd h (by simp)
    · rw [if_neg hd] at h
      simp [hd, ih _ h, List.length_cons, Nat.add_comm]

theorem extractBlockContent_of_neverCloses (suffix : Str)
    (h : neverCloses suffix 1 = true) :
    extractBlockContent suffix = suffix.dropLast := by
  rw [extractBlockContent, blockScan_of_neverCloses suffix 1 h,
    List.dropLast_eq_take]

/-- Attempt to match `resource\s+"([^"]+)"\s+"([^"]+)"\s*\{` at the head
of `s`; on success return the two captures and the number of characters
consumed (greedy scans are exact: each character class excludes the
following literal). -/
def matchResourceAt (s : Str) : Option (Str × Str × Nat) :=
  match matchLit (strL "resource") s with
  | none => none
  | some r1 =>
    let sp1 := spanP isPySpace r1
    if sp1.1 = [] then none
    else
      match sp1.2 with
      | '"' :: r3 =>
        let ty := spanP notQuote r3
        if ty.1 = [] then none
        else
          match ty.2 with
          | '"' :: r5 =>
            let sp2 := spanP isPySpace r5
            if sp2.1 = [] then none
            else
              match sp2.2 with
              | '"' :: r7 =>
                let nm := spanP notQuote r7
                if nm.1 = [] then none
                else
                  match nm.2 with
                  | '"' :: r9 =>
                    let sp3 := spanP isPySpace r9
                    match sp3.2 with
                    | '{' :: r11 => some (ty.1, nm.1, s.length - r11.length)
                    | _ => none
                  | _ => none
              | _ => none
          | _ => none
      | _ => none

/-- The lookahead `(?=\n\s*[a-z_]|\n\s*\}|\Z)` of the attribute regex. -/
def lookaheadOk : Str → Bool
  | [] => true
  | c :: t =>
    if c = '\n' then
      match (spanP isPySpace t).2 with
      | d :: _ => isKeyStart d || d == '}'
      | [] => false
    else false

/-- The lazy `(.+?)` capture: the shortest non-empty prefix after which
the lookahead holds (the end of input always satisfies `\Z`, so the
empty-rest case stops). -/
def valueAux : Char → Str → Str × Str
  | c, [] => ([c], [])
  | c, d :: rest' =>
    if lookaheadOk (d :: rest') then ([c], d :: rest')
    else
      let r := valueAux d rest'
      (c :: r.1, r.2)

/-- One attempt of the attribute regex at a `^` position: returns the key,
the raw (unstripped) value, and the number of characters consumed. -/
def tryAttrMatch (s : Str) : Option (Str × Str × Nat) :=
  let w1 := spanP isPySpace s
  match w1.2 with
  | c :: t2 =>
    if isKeyStart c then
      let kr := spanP isKeyChar t2
      let w2 := spanP isPySpace kr.2
      match w2.2 with
      | '=' :: t5 =>
        let w3 := spanP isPySpace t5
        match w3.2 with
        | d :: t7 =>
          let r := valueAux d t7
          some (c :: kr.1, r.1, s.length - r.2.length)
        | [] =>
          match w3.1.getLast? with
          | some wc => some (c :: kr.1, [wc], s.length)
          | none => none
      | _ => none
    else none
  | [] => none

/-- `re.finditer` of the attribute regex: attempts start only at `^`
positions (string start or just after a newline) and resume at the match
end.  Each successful match consumes at least three characters, so fuel
`length + 1` is exact. -/
def attrScanAux : Nat → Str → Bool → List (Str × Str)
  | 0, _, _ => []
  | _ + 1, [], _ => []
  | fuel + 1, c :: rest, atLS =>
    if atLS then
      match tryAttrMatch (c :: rest) with
      | some (k, v, n) =>
        (k, stripStr v) ::
          attrScanAux fuel (List.drop (n - 1) rest)
            (((c :: rest).take n).getLast? == some '\n')
      | none => attrScanAux fuel rest (c == '\n')
    else attrScanAux fuel rest (c == '\n')

/-- `_parse_attributes`: run the attribute regex over the block body and
assign `attributes[key] = value.strip()` for each match in order. -/
def parse_attributes (body : Str) : List (Str × Str) :=
  (attrScanAux (body.length + 1) body true).foldl
    (fun m kv => dictUpdate m kv.1 kv.2) []

/-- Count newlines in a text (`content[:match.start].count("\n")`). -/
def countNl (l : Str) : Nat := (l.filter (fun c => c == '\n')).length

/-- The scan of `_extract_resources`: try the resource pattern at every
position from left to right; on a match, record the captures, the block
body from just after the opening brace, and the 1-based line number of the
match start, then resume at the match end (`re.finditer`). -/
def extractResourceBlocksAux : Nat → Str → Nat → List (Str × Str × Str × Nat)
  | 0, _, _ => []
  | _ + 1, [], _ => []
  | fuel + 1, c :: rest, line =>
    match matchResourceAt (c :: rest) with
    | some (ty, nm, n) =>
      (ty, nm, extractBlockContent (List.drop n (c :: rest)), line) ::
        extractResourceBlocksAux fuel (List.drop (n - 1) rest)
          (line + countNl ((c :: rest).take n))
    | none =>
      extractResourceBlocksAux fuel rest (line + if c = '\n' then 1 else 0)

/-- The block-level output of `_extract_resources` (kind `resource` only —
the only kind the extractor scans for): type, name, raw body, line. -/
def extract_blocks (content : Str) : List (Str × Str × Str × Nat) :=
  extractResourceBlocksAux (content.length + 1) content 1

/-- `TerraformResource` (attribute values are raw text). -/
structure TFResource where
  resource_type : Str
  resource_name : Str
  attributes : List (Str × Str)
  file_path : Str
  line_number : Nat
deriving DecidableEq, Repr

/-- `_extract_resources`: one `TerraformResource` per matched block, its
attributes parsed from the block body. -/
def extract_resources (content : Str) (filePath : Str) : List TFResource :=
  (extract_blocks content).map fun b =>
    { resource_type := b.1, resource_name := b.2.1,
      attributes := parse_attributes b.2.2.1,
      file_path := filePath, line_number := b.2.2.2 }

/-- Attempt to match `<kw>\s+"([^"]+)"\s*\{` at the head of `s`
(the `variable` / `output` patterns). -/
def matchOneStringBlockAt (kw : Str) (s : Str) : Option (Str × Nat) :=
  match matchLit kw s with
  | none => none
  | some r1 =>
    let sp1 := spanP isPySpace r1
    if sp1.1 = [] then none
    else
      match sp1.2 with
      | '"' :: r3 =>
        let nm := spanP notQuote r3
        if nm.1 = [] then none
        else
          match nm.2 with
          | '"' :: r5 =>
            let sp2 := spanP isPySpace r5
            match sp2.2 with
            | '{' :: r7 => some (nm.1, s.length - r7.length)
            | _ => none
          | _ => none
      | _ => none

/-- Scan for named (`variable`/`output`) blocks, pairing each name with
its raw block body. -/
def extractNamedBlocksAux (kw : Str) : Nat → Str → List (Str × Str)
  | 0, _ => []
  | _ + 1, [] => []
  | fuel + 1, c :: rest =>
    match matchOneStringBlockAt kw (c :: rest) with
    | some (nm, n) =>
      (nm, extractBlockContent (List.drop n (c :: rest))) ::
        extractNamedBlocksAux kw fuel (List.drop (n - 1) rest)
    | none => extractNamedBlocksAux kw fuel rest

/-- `_extract_variables`: `variables[name] = self._parse_attributes(body)`
for each matched `variable` block, in match order. -/
def extract_variables (content : Str) : List (Str × List (Str × Str)) :=
  (extractNamedBlocksAux (strL "variable") (content.length + 1) content).foldl
    (fun m nb => dictUpdate m nb.1 (parse_attributes nb.2)) []

/-- `_extract_outputs`. -/
def extract_outputs (content : Str) : List (Str × List (Str × Str)) :=
  (extractNamedBlocksAux (strL "output") (content.length + 1) content).foldl
    (fun m nb => dictUpdate m nb.1 (parse_attributes nb.2)) []

/-- Attempt to match `locals\s*\{` at the head of `s`. -/
def matchLocalsAt (s : Str) : Option Nat :=
  match matchLit (strL "locals") s with
  | none => none
  | some r1 =>
    let sp := spanP isPySpace r1
    match sp.2 with
    | '{' :: r3 => some (s.length - r3.length)
    | _ => none

/-- Scan for `locals` blocks, returning their raw bodies. -/
def extractLocalsBlocksAux : Nat → Str → List Str
  | 0, _ => []
  | _ + 1, [] => []
  | fuel + 1, c :: rest =>
    match matchLocalsAt (c :: rest) with
    | some n =>
      extractBlockContent (List.drop n (c :: rest)) ::
        extractLocalsBlocksAux fuel (List.drop (n - 1) rest)
    | none => extractLocalsBlocksAux fuel rest

/-- `_extract_locals`: `locals_dict.update(values)` per `locals` block. -/
def extract_locals (content : Str) : List (Str × Str) :=
  (extractLocalsBlocksAux (content.length + 1) content).foldl
    (fun m body => dictUpdateAll m (parse_attributes body)) []

/-- `TerraformModule`. -/
structure TFModule where
  module_path : Str
  resources : List TFResource
  variables' : List (Str × List (Str × Str))
  outputs : List (Str × List (Str × Str))
  locals : List (Str × Str)
deriving DecidableEq, Repr

/-- The freshly constructed `TerraformModule(module_path)`. -/
def emptyModule (path : Str) : TFModule :=
  { module_path := path, resources := [], variables' := [], outputs := [], locals := [] }

/-- The loop body of `TerraformModule.get_resource`. -/
def findResource : List TFResource → Str → Str → Option TFResource
  | [], _, _ => none
  | r :: rest, ty, nm =>
    if r.resource_type = ty ∧ r.resource_name = nm then some r
    else findResource rest ty nm

/-- `TerraformModule.get_resource`. -/
def get_resource (m : TFModule) (resource_type resource_name : Str) : Option TFResource :=
  findResource m.resources resource_type resource_name

/-- A file as `_parse_file` sees it: its path, and its content when
`open`/`read` succeeds (`none` models a read or decode failure, the case
the `try`/`except` block catches and logs). -/
structure PyFile where
  path : Str
  content : Option Str
deriving DecidableEq, Repr

/-- The directory as `parse_module` sees it: whether it exists, and the
`.tf` files `module_dir.glob("*.tf")` yields, in enumeration order. -/
structure FileSystem where
  dirExists : Bool
  tfFiles : List PyFile
deriving DecidableEq, Repr

/-- Errors `parse_module` can raise. -/
inductive ParseError where
  | fileNotFound
deriving DecidableEq, Repr

/-- `_parse_file`: on a successful read, extend the module's resource list
and merge the extracted variable/output/locals dicts; on a read failure
the `except` branch logs a warning and leaves the module unchanged. -/
def parse_file (m : TFModule) (f : PyFile) : TFModule :=
  match f.content with
  | none => m
  | some content =>
    { m with
      resources := m.resources ++ extract_resources content f.path
      variables' := dictUpdateAll m.variables' (extract_variables content)
      outputs := dictUpdateAll m.outputs (extract_outputs content)
      locals := dictUpdateAll m.locals (extract_locals content) }

/-- `parse_module`: raise `FileNotFoundError` when the directory does not
exist, otherwise fold `_parse_file` over the directory's `.tf` files. -/
def parse_module (fs : FileSystem) (module_path : Str) : Except ParseError TFModule :=
  if fs.dirExists then
    .ok (fs.tfFiles.foldl parse_file (emptyModule module_path))
  else
    .error ParseError.fileNotFound

/-- Claim C8: `get_resource` returns the first resource in list order whose
type and name both match, and `None` exactly when no resource matches. -/
theorem get_resource_first_match (m : TFModule) (ty nm : Str) :
    get_resource m ty nm =
      (m.resources.filter
        (fun r => decide (r.resource_type = ty ∧ r.resource_name = nm))).head? ∧
    (get_resource m ty nm = none ↔
      ∀ r ∈ m.resources, ¬(r.resource_type = ty ∧ r.resource_name = nm)) := by
  have hmain : ∀ rs : List TFResource,
      findResource rs ty nm =
        (rs.filter
          (fun r => decide (r.resource_type = ty ∧ r.resource_name = nm))).head? := by
    intro rs
    induction rs with
    | nil => simp [findResource]
    | cons r rest ih =>
      by_cases h : r.resource_type = ty ∧ r.resource_name = nm
      · simp [findResource, h, List.filter_cons]
      · simp [findResource, h, List.filter_cons, ih]
  refine ⟨hmain m.resources, ?_⟩
  rw [get_resource, hmain m.resources]
  rw [List.head?_eq_none_iff, List.filter_eq_nil_iff]
  simp

/-- Witness for claim C8 at a concrete module. -/
theorem get_resource_first_match_witness :
    get_resource
      { module_path := strL "m",
        resources :=
          [ { resource_type := strL "aws_s3_bucket", resource_name := strL "a",
              attributes := [(strL "x", strL "1")], file_path := strL "f",
              line_number := 1 },
            { resource_type := strL "aws_s3_bucket", resource_name := strL "a",
              attributes := [(strL "x", strL "2")], file_path := strL "f",
              line_number := 9 } ],
        variables' := [], outputs := [], locals := [] }
      (strL "aws_s3_bucket") (strL "a") =
      some { resource_type := strL "aws_s3_bucket", resource_name := strL "a",
             attributes := [(strL "x", strL "1")], file_path := strL "f",
             line_number := 1 } := by
  rw [(get_resource_first_match _ (strL "aws_s3_bucket") (strL "a")).1]
  decide

/-- Claim C3 (counterexample): on the single-line resource text the
attribute regex cannot stop at `versioning` (its lookahead requires a
newline before the next key), so attribute extraction returns a ONE-entry
map whose `bucket` value swallows the rest of the body — not the claimed
two-entry map. -/
theorem single_line_resource_one_attr :
    parse_attributes (strL " bucket = \"my-bucket\" versioning = true ") =
      [(strL "bucket", strL "\"my-bucket\" versioning = true")] ∧
    alookup (strL "versioning")
      (parse_attributes (strL " bucket = \"my-bucket\" versioning = true ")) = none := by
  constructor
  · decide
  · decide

/-- Claim C3 (amended): block extraction on the single-line input returns
exactly one block with kind resource, type `aws_s3_bucket`, name
`example`, body ` bucket = "my-bucket" versioning = true ` and line 1, and
attribute extraction on its body returns the one-entry raw-text map
mapping `bucket` to `"my-bucket" versioning = true` (quotes included, the
`versioning` assignment swallowed into the value). -/
theorem single_line_resource_extraction :
    extract_blocks
      (strL "resource \"aws_s3_bucket\" \"example\" \x7b bucket = \"my-bucket\" versioning = true \x7d") =
      [(strL "aws_s3_bucket", strL "example",
        strL " bucket = \"my-bucket\" versioning = true ", 1)] ∧
    parse_attributes (strL " bucket = \"my-bucket\" versioning = true ") =
      [(strL "bucket", strL "\"my-bucket\" versioning = true")] := by
  constructor
  · decide
  · decide

/-- Claim C2 (counterexample): on an unbalanced input the extracted body
is NOT the text running to the end of the input: the slice
`content[start_pos : pos - 1]` drops the final character when the scan
stops at end-of-text.  Here the text after the opening brace is `ab`, but
the returned body is `a`. -/
theorem unbalanced_block_drops_last_char :
    extract_blocks (strL "resource \"t\" \"n\" \x7bab") =
      [(strL "t", strL "n", strL "a", 1)] ∧
    strL "a" ≠ strL "ab" := by
  constructor
  · decide
  · decide

theorem spanP_capture_quote (t : Str) (h : ∀ c ∈ t, notQuote c = true) (rest : Str) :
    spanP notQuote (t ++ '"' :: rest) = (t, '"' :: rest) :=
  spanP_of_all _ _ _ h (by intro c hc; simp at hc; subst hc; decide)

theorem spanP_one_space (c : Char) (hc : isPySpace c = false) (rest : Str) :
    spanP isPySpace (' ' :: c :: rest) = ([' '], c :: rest) := by
  have h := spanP_of_all isPySpace [' '] (c :: rest)
    (by intro d hd; simp at hd; subst hd; decide)
    (by intro d hd; simp at hd; subst hd; exact hc)
  simpa using h

/-- The text `resource "<ty>" "<nm>" {`, the opening signature the
resource pattern matches. -/
def resourceHeader (ty nm : Str) : Str :=
  strL "resource" ++ ' ' :: '"' :: (ty ++ '"' :: ' ' :: '"' :: (nm ++ ['"', ' ', '{']))

theorem matchResourceAt_header (ty nm suffix : Str)
    (hty1 : ty ≠ []) (hty2 : ∀ c ∈ ty, notQuote c = true)
    (hnm1 : nm ≠ []) (hnm2 : ∀ c ∈ nm, notQuote c = true) :
    matchResourceAt (resourceHeader ty nm ++ suffix) =
      some (ty, nm, (resourceHeader ty nm).length) := by
  have harr : resourceHeader ty nm ++ suffix =
      strL "resource" ++
        (' ' :: '"' :: (ty ++ '"' :: ' ' :: '"' :: (nm ++ '"' :: ' ' :: '{' :: suffix))) := by
    simp [resourceHeader]
  have hsp1 : spanP isPySpace
      (' ' :: '"' :: (ty ++ '"' :: ' ' :: '"' :: (nm ++ '"' :: ' ' :: '{' :: suffix))) =
      ([' '], '"' :: (ty ++ '"' :: ' ' :: '"' :: (nm ++ '"' :: ' ' :: '{' :: suffix))) :=
    spanP_one_space '"' (by decide) _
  have hty : spanP notQuote (ty ++ '"' :: ' ' :: '"' :: (nm ++ '"' :: ' ' :: '{' :: suffix)) =
      (ty, '"' :: ' ' :: '"' :: (nm ++ '"' :: ' ' :: '{' :: suffix)) :=
    spanP_capture_quote ty hty2 _
  have hsp2 : spanP isPySpace (' ' :: '"' :: (nm ++ '"' :: ' ' :: '{' :: suffix)) =
      ([' '], '"' :: (nm ++ '"' :: ' ' :: '{' :: suffix)) :=
    spanP_one_space '"' (by decide) _
  have hnm : spanP notQuote (nm ++ '"' :: ' ' :: '{' :: suffix) =
      (nm, '"' :: ' ' :: '{' :: suffix) :=
    spanP_capture_quote nm hnm2 _
  have hsp3 : spanP isPySpace (' ' :: '{' :: suffix) = ([' '], '{' :: suffix) :=
    spanP_one_space '{' (by decide) _
  rw [harr]
  simp only [matchResourceAt, matchLit_append, hsp1, hty, hsp2, hnm, hsp3]
  simp [resourceHeader, List.length_append, List.length_cons, hty1, hnm1]
  omega

theorem extractResourceBlocksAux_match (fuel : Nat) (s : Str) (line : Nat)
    (ty nm : Str) (n : Nat) (hs : s ≠ [])
    (hm : matchResourceAt s = some (ty, nm, n)) :
    extractResourceBlocksAux (fuel + 1) s line =
      (ty, nm, extractBlockContent (List.drop n s), line) ::
        extractResourceBlocksAux fuel (List.drop (n - 1) s.tail)
          (line + countNl (s.take n)) := by
  cases s with
  | nil => exact absurd rfl hs
  | cons c rest => simp [extractResourceBlocksAux, hm]

/-- Claim C2 (amended): for a matched resource opening whose following
text never rebalances the brace count, `extract_blocks` terminates (the
embedded scan is a total function: the Python loop advances `pos` on every
iteration, bounded by `len(content)`) and returns the block, whose body is
the text from just after the opening brace to the end of the input WITH
THE FINAL CHARACTER DROPPED: the Python slice `content[start_pos:pos-1]`
excludes one character even when no closing brace was ever found. -/
theorem unbalanced_block_runs_to_end (ty nm suffix : Str)
    (hty1 : ty ≠ []) (hty2 : ∀ c ∈ ty, notQuote c = true)
    (hnm1 : nm ≠ []) (hnm2 : ∀ c ∈ nm, notQuote c = true)
    (hsuf : neverCloses suffix 1 = true) :
    (extract_blocks (resourceHeader ty nm ++ suffix)).head? =
      some (ty, nm, suffix.dropLast, 1) := by
  have hne : resourceHeader ty nm ++ suffix ≠ [] := by
    simp [resourceHeader]
  rw [extract_blocks,
    extractResourceBlocksAux_match _ _ _ _ _ _ hne
      (matchResourceAt_header ty nm suffix hty1 hty2 hnm1 hnm2)]
  rw [List.drop_left, extractBlockContent_of_neverCloses suffix hsuf]
  rfl

/-- Witness for the amended claim C2 at a concrete unbalanced input. -/
theorem unbalanced_block_runs_to_end_witness :
    (extract_blocks (resourceHeader (strL "t") (strL "n") ++ strL "ab")).head? =
      some (strL "t", strL "n", (strL "ab").dropLast, 1) :=
  unbalanced_block_runs_to_end (strL "t") (strL "n") (strL "ab")
    (by decide) (by decide) (by decide) (by decide) (by decide)

theorem isPySpace_elim (c : Char) (h : isPySpace c = true) :
    c = ' ' ∨ c = '\t' ∨ c = '\n' ∨ c = '\r' ∨ c = '\x0b' ∨ c = '\x0c' := by
  simpa [isPySpace, or_assoc] using h

theorem keyStart_not_space (c : Char) (h : isKeyStart c = true) :
    isPySpace c = false := by
  by_contra h2
  rcases isPySpace_elim c (by simpa using h2) with rfl | rfl | rfl | rfl | rfl | rfl <;>
    exact absurd h (by decide)

theorem getLast?_append_right {α : Type} (l₁ l₂ : List α) (h : l₂ ≠ []) :
    (l₁ ++ l₂).getLast? = l₂.getLast? := by
  induction l₁ with
  | nil => simp
  | cons a t ih =>
    cases ht : t ++ l₂ with
    | nil =>
      rcases List.append_eq_nil.mp ht with ⟨-, h2⟩
      exact absurd h2 h
    | cons b u =>
      rw [List.cons_append, ht, List.getLast?_cons_cons, ← ht, ih]

theorem attrScanAux_congr_fuel :
    ∀ (N : Nat) (s : Str) (b : Bool) (f1 f2 : Nat),
      s.length ≤ N → s.length < f1 → s.length < f2 →
      attrScanAux f1 s b = attrScanAux f2 s b := by
  intro N
  induction N with
  | zero =>
    intro s b f1 f2 hN h1 h2
    have hs : s = [] := by
      cases s with
      | nil => rfl
      | cons c r => simp at hN
    subst hs
    obtain ⟨f1', rfl⟩ : ∃ m, f1 = m + 1 := ⟨f1 - 1, by omega⟩
    obtain ⟨f2', rfl⟩ : ∃ m, f2 = m + 1 := ⟨f2 - 1, by omega⟩
    simp [attrScanAux]
  | succ N ih =>
    intro s b f1 f2 hN h1 h2
    cases s with
    | nil =>
      obtain ⟨f1', rfl⟩ : ∃ m, f1 = m + 1 := ⟨f1 - 1, by omega⟩
      obtain ⟨f2', rfl⟩ : ∃ m, f2 = m + 1 := ⟨f2 - 1, by omega⟩
      simp [attrScanAux]
    | cons c rest =>
      obtain ⟨f1', rfl⟩ : ∃ m, f1 = m + 1 := ⟨f1 - 1, by omega⟩
      obtain ⟨f2', rfl⟩ : ∃ m, f2 = m + 1 := ⟨f2 - 1, by omega⟩
      have hr : rest.length ≤ N := by simp at hN; omega
      have hr1 : rest.length < f1' := by simp at h1; omega
      have hr2 : rest.length < f2' := by simp at h2; omega
      cases b with
      | false =>
        simp only [attrScanAux, Bool.false_eq_true, if_neg, not_false_iff]
        exact ih rest (c == '\n') f1' f2' hr hr1 hr2
      | true =>
        simp only [attrScanAux, if_pos]
        cases htm : tryAttrMatch (c :: rest) with
        | none => exact ih rest (c == '\n') f1' f2' hr hr1 hr2
        | some t =>
          obtain ⟨k, v, n⟩ := t
          have hd : (List.drop (n - 1) rest).length ≤ N := by
            rw [List.length_drop]; omega
          have hd1 : (List.drop (n - 1) rest).length < f1' := by
            rw [List.length_drop]; omega
          have hd2 : (List.drop (n - 1) rest).length < f2' := by
            rw [List.length_drop]; omega
          simp only [htm]
          rw [ih _ _ f1' f2' hd hd1 hd2]

theorem attrScanAux_skip (fuel : Nat) (c : Char) (rest : Str) (b : Bool)
    (h : b = false ∨ tryAttrMatch (c :: rest) = none) :
    attrScanAux (fuel + 1) (c :: rest) b = attrScanAux fuel rest (c == '\n') := by
  rcases h with rfl | h
  · simp [attrScanAux]
  · cases b with
    | false => simp [attrScanAux]
    | true => simp [attrScanAux, h]

theorem attrScanAux_hit (fuel : Nat) (c : Char) (rest : Str) (k v : Str) (n : Nat)
    (h : tryAttrMatch (c :: rest) = some (k, v, n)) :
    attrScanAux (fuel + 1) (c :: rest) true =
      (k, stripStr v) ::
        attrScanAux fuel (List.drop (n - 1) rest)
          (((c :: rest).take n).getLast? == some '\n') := by
  simp [attrScanAux, h]

theorem stripStr_eq_self (v : Str)
    (h1 : ∀ d ∈ v.take 1, isPySpace d = false)
    (h2 : ∀ d ∈ v.reverse.take 1, isPySpace d = false) : stripStr v = v := by
  rw [stripStr]
  have e1 : v.dropWhile isPySpace = v := by
    cases v with
    | nil => rfl
    | cons a t =>
      rw [List.dropWhile_cons]
      simp [h1 a (by simp)]
  rw [e1]
  have e2 : v.reverse.dropWhile isPySpace = v.reverse := by
    cases hv : v.reverse with
    | nil => rfl
    | cons a t =>
      rw [List.dropWhile_cons]
      have := h2 a (by rw [hv]; simp)
      simp [this]
  rw [e2, List.reverse_reverse]

theorem valueAux_through (c0 : Char) (v rest : Str) (hv : '\n' ∉ v)
    (hr : lookaheadOk rest = true) :
    valueAux c0 (v ++ rest) = (c0 :: v, rest) := by
  induction v generalizing c0 with
  | nil =>
    rw [List.nil_append]
    cases rest with
    | nil => rfl
    | cons e r => simp [valueAux, hr]
  | cons d v' ih =>
    have hd : d ≠ '\n' := fun h => hv (by simp [h])
    have hla : lookaheadOk (d :: (v' ++ rest)) = false := by
      simp [lookaheadOk, hd]
    rw [List.cons_append]
    simp only [valueAux, hla, Bool.false_eq_true, if_neg, not_false_iff,
      ite_false]
    have hstep := ih d (fun h => hv (List.mem_cons_of_mem _ h))
    simp [hstep]

theorem tryAttrMatch_rule_open (X : Str) :
    tryAttrMatch ('r' :: 'u' :: 'l' :: 'e' :: ' ' :: '{' :: X) = none := by
  have h0 : spanP isPySpace ('r' :: 'u' :: 'l' :: 'e' :: ' ' :: '{' :: X) =
      ([], 'r' :: 'u' :: 'l' :: 'e' :: ' ' :: '{' :: X) := by
    simpa using spanP_of_all isPySpace [] ('r' :: 'u' :: 'l' :: 'e' :: ' ' :: '{' :: X)
      (by simp) (by intro x hx; simp at hx; subst hx; decide)
  have h1 : spanP isKeyChar ('u' :: 'l' :: 'e' :: ' ' :: '{' :: X) =
      (['u', 'l', 'e'], ' ' :: '{' :: X) := by
    simpa using spanP_of_all isKeyChar ['u', 'l', 'e'] (' ' :: '{' :: X)
      (by decide) (by intro x hx; simp at hx; subst hx; decide)
  have h2 : spanP isPySpace (' ' :: '{' :: X) = ([' '], '{' :: X) :=
    spanP_one_space '{' (by decide) _
  have h3 : isKeyStart 'r' = true := by decide
  simp [tryAttrMatch, h0, h1, h2, h3]

theorem tryAttrMatch_assign (c : Char) (k' : Str) (d : Char) (v' rest : Str)
    (hc : isKeyStart c = true) (hk' : ∀ x ∈ k', isKeyChar x = true)
    (hd : isPySpace d = false) (hv' : '\n' ∉ v')
    (hrest : lookaheadOk rest = true) :
    tryAttrMatch
      (' ' :: ' ' :: (c :: (k' ++ ' ' :: '=' :: ' ' :: (d :: (v' ++ rest))))) =
      some (c :: k', d :: v', k'.length + v'.length + 7) := by
  have h0 : spanP isPySpace
      (' ' :: ' ' :: (c :: (k' ++ ' ' :: '=' :: ' ' :: (d :: (v' ++ rest))))) =
      ([' ', ' '], c :: (k' ++ ' ' :: '=' :: ' ' :: (d :: (v' ++ rest)))) := by
    simpa using spanP_of_all isPySpace [' ', ' ']
      (c :: (k' ++ ' ' :: '=' :: ' ' :: (d :: (v' ++ rest))))
      (by intro x hx; simp at hx; subst hx; decide)
      (by intro x hx; simp at hx; subst hx; exact keyStart_not_space _ hc)
  have h1 : spanP isKeyChar (k' ++ ' ' :: '=' :: ' ' :: (d :: (v' ++ rest))) =
      (k', ' ' :: '=' :: ' ' :: (d :: (v' ++ rest))) :=
    spanP_of_all _ _ _ hk' (by intro x hx; simp at hx; subst hx; decide)
  have h2 : spanP isPySpace (' ' :: '=' :: ' ' :: (d :: (v' ++ rest))) =
      ([' '], '=' :: ' ' :: (d :: (v' ++ rest))) :=
    spanP_one_space '=' (by decide) _
  have h3 : spanP isPySpace (' ' :: d :: (v' ++ rest)) =
      ([' '], d :: (v' ++ rest)) :=
    spanP_one_space d hd _
  have h4 := valueAux_through d v' rest hv' hrest
  simp only [tryAttrMatch, h0, h1, h2, h3, h4, hc, if_pos, ite_true]
  simp [List.length_append, List.length_cons]
  omega

/-- Claim C7 (counterexample): a nested `rule { ... }` sub-block is NOT
captured as one opaque raw-text value: the `rule {` line matches no
`key = value` pattern (it has no `=`), so it contributes no entry at all,
while the sub-block's own assignment `status = "on"` is promoted into the
flat attribute map as if it were top-level. -/
theorem rule_subblock_not_opaque :
    parse_attributes (strL "rule \x7b\n  status = \"on\"\n\x7d") =
      [(strL "status", strL "\"on\"")] ∧
    alookup (strL "rule")
      (parse_attributes (strL "rule \x7b\n  status = \"on\"\n\x7d")) = none := by
  constructor
  · decide
  · decide

/-- The block-body family of claim C7: a `rule { ... }` sub-block holding
one simple assignment `<c::k'> = <d::v'>`, nested in a body. -/
def ruleBlockBody (c : Char) (k' : Str) (d : Char) (v' : Str) : Str :=
  'r' :: 'u' :: 'l' :: 'e' :: ' ' :: '{' :: '\n' ::
    (' ' :: ' ' :: (c :: (k' ++ ' ' :: '=' :: ' ' :: (d :: (v' ++ '\n' :: '}' :: [])))))

/-- Claim C7 (amended): for every nested sub-block `rule { <key> = <value> }`
(identifier key `c :: k'`, single-line value `d :: v'` with no surrounding
whitespace), attribute extraction does not capture the sub-block as an
opaque raw-text value: the map has no `rule` entry, and instead contains
exactly the sub-block's own assignment, promoted to the flat map. -/
theorem nested_block_dissolved (c : Char) (k' : Str) (d : Char) (v' : Str)
    (hc : isKeyStart c = true) (hk' : ∀ x ∈ k', isKeyChar x = true)
    (hd1 : isPySpace d = false) (hv'nl : '\n' ∉ v')
    (hvlast : ∀ x ∈ (d :: v').reverse.take 1, isPySpace x = false)
    (hne : c :: k' ≠ strL "rule") :
    parse_attributes (ruleBlockBody c k' d v') = [(c :: k', d :: v')] ∧
    alookup (strL "rule") (parse_attributes (ruleBlockBody c k' d v')) = none := by
  have hmain : parse_attributes (ruleBlockBody c k' d v') = [(c :: k', d :: v')] := by
    rw [parse_attributes, ruleBlockBody]
    rw [attrScanAux_skip _ _ _ _ (Or.inr (tryAttrMatch_rule_open _))]
    rw [List.length_cons, attrScanAux_skip _ _ _ _ (Or.inl (by decide))]
    rw [List.length_cons, attrScanAux_skip _ _ _ _ (Or.inl (by decide))]
    rw [List.length_cons, attrScanAux_skip _ _ _ _ (Or.inl (by decide))]
    rw [List.length_cons, attrScanAux_skip _ _ _ _ (Or.inl (by decide))]
    rw [List.length_cons, attrScanAux_skip _ _ _ _ (Or.inl (by decide))]
    rw [List.length_cons, attrScanAux_skip _ _ _ _ (Or.inl (by decide))]
    rw [show ('\n' == '\n') = true from by decide]
    rw [List.length_cons,
      attrScanAux_hit _ _ _ _ _ _
        (tryAttrMatch_assign c k' d v' ('\n' :: '}' :: []) hc hk' hd1 hv'nl
          (by decide))]
    have hshape :
        ' ' :: (c :: (k' ++ ' ' :: '=' :: ' ' :: (d :: (v' ++ '\n' :: '}' :: [])))) =
        (' ' :: c :: (k' ++ ' ' :: '=' :: ' ' :: (d :: v'))) ++ ('\n' :: '}' :: []) := by
      simp [List.append_assoc]
    have hlen : (' ' :: c :: (k' ++ ' ' :: '=' :: ' ' :: (d :: v'))).length =
        k'.length + v'.length + 7 - 1 := by
      simp [List.length_append, List.length_cons]
      omega
    have hdrop :
        List.drop (k'.length + v'.length + 7 - 1)
          (' ' :: (c :: (k' ++ ' ' :: '=' :: ' ' :: (d :: (v' ++ '\n' :: '}' :: []))))) =
        '\n' :: '}' :: [] := by
      rw [hshape, ← hlen, List.drop_left]
    have hshape2 :
        (' ' :: ' ' :: (c :: (k' ++ ' ' :: '=' :: ' ' :: (d :: (v' ++ '\n' :: '}' :: []))))) =
        ((' ' :: ' ' :: c :: (k' ++ ' ' :: '=' :: ' ' :: [])) ++ (d :: v')) ++ ('\n' :: '}' :: []) := by
      simp [List.append_assoc]
    have hlen2 : (((' ' :: ' ' :: c :: (k' ++ ' ' :: '=' :: ' ' :: [])) ++ (d :: v'))).length =
        k'.length + v'.length + 7 := by
      simp [List.length_append, List.length_cons]
      omega
    have htake :
        (' ' :: ' ' :: (c :: (k' ++ ' ' :: '=' :: ' ' :: (d :: (v' ++ '\n' :: '}' :: []))))).take
          (k'.length + v'.length + 7) =
        (' ' :: ' ' :: c :: (k' ++ ' ' :: '=' :: ' ' :: [])) ++ (d :: v') := by
      rw [hshape2, ← hlen2, List.take_left]
    have hlast :
        ((' ' :: ' ' :: c :: (k' ++ ' ' :: '=' :: ' ' :: [])) ++ (d :: v')).getLast? =
          (d :: v').getLast? :=
      getLast?_append_right _ _ (by simp)
    have hlastne : ((d :: v').getLast? == some '\n') = false := by
      have hmem : (d :: v').getLast (by simp) ∈ d :: v' := List.getLast_mem _
      have hgl : (d :: v').getLast? = some ((d :: v').getLast (by simp)) :=
        List.getLast?_eq_getLast _ _
      rw [hgl]
      rcases List.mem_cons.mp hmem with hmm | hmm
      · have : d ≠ '\n' := by
          intro hdd
          rw [hdd] at hd1
          exact absurd hd1 (by decide)
        simp [hmm, this]
      · have : (d :: v').getLast (by simp) ≠ '\n' := by
          intro hdd
          rw [hdd] at hmm
          exact hv'nl hmm
        simp [this]
    rw [hdrop, htake, hlast, hlastne]
    have hfuel :
        attrScanAux
          ((' ' :: ' ' :: (c :: (k' ++ ' ' :: '=' :: ' ' :: (d :: (v' ++ '\n' :: '}' :: []))))).length)
          ('\n' :: '}' :: []) false =
        attrScanAux 3 ('\n' :: '}' :: []) false := by
      apply attrScanAux_congr_fuel 2 _ _ _ _ (by simp)
      · simp [List.length_append, List.length_cons]
      · simp
    rw [hfuel]
    have htail : attrScanAux 3 ('\n' :: '}' :: []) false = [] := by decide
    rw [htail]
    have hstrip : stripStr (d :: v') = d :: v' := by
      refine stripStr_eq_self _ ?_ hvlast
      intro x hx
      simp at hx
      subst hx
      exact hd1
    rw [hstrip]
    simp [dictUpdate]
  refine ⟨hmain, ?_⟩
  rw [hmain]
  simp [alookup, hne]

/-- Witness for the amended claim C7 at a concrete sub-block. -/
theorem nested_block_dissolved_witness :
    parse_attributes (ruleBlockBody 's' (strL "tatus") '"' (strL "on\"")) =
      [(strL "status", strL "\"on\"")] ∧
    alookup (strL "rule")
      (parse_attributes (ruleBlockBody 's' (strL "tatus") '"' (strL "on\""))) = none := by
  have h := nested_block_dissolved 's' (strL "tatus") '"' (strL "on\"")
    (by decide) (by decide) (by decide) (by decide) (by decide) (by decide)
  exact ⟨h.1.trans (by decide), h.2⟩

theorem lastLookup_none_of_not_mem (k : Str) (m : List (Str × α))
    (h : k ∉ dictKeys m) : lastLookup k m = none := by
  induction m with
  | nil => simp [lastLookup]
  | cons p rest ih =>
    obtain ⟨k', v⟩ := p
    have h1 : k' ≠ k := by
      intro hk
      exact h (by simp [dictKeys, hk])
    have h2 : k ∉ dictKeys rest := fun hk => h (by simp [dictKeys] at hk ⊢; right; exact hk)
    simp [lastLookup, ih h2, h1]

theorem lastLookup_eq_alookup_of_nodup (k : Str) (m : List (Str × α))
    (h : (dictKeys m).Nodup) : lastLookup k m = alookup k m := by
  induction m with
  | nil => simp [lastLookup, alookup]
  | cons p rest ih =>
    obtain ⟨k', v⟩ := p
    simp only [dictKeys, List.map_cons, List.nodup_cons] at h
    by_cases hk : k' = k
    · subst hk
      have : lastLookup k' rest = none :=
        lastLookup_none_of_not_mem k' rest (by simpa [dictKeys] using h.1)
      simp [lastLookup, alookup, this]
    · have := ih (by simpa [dictKeys] using h.2)
      simp only [lastLookup, alookup, this, hk, if_neg, ne_eq, not_false_iff]
      cases alookup k rest <;> simp [hk]

theorem nodup_dictKeys_foldl {β γ : Type} (l : List γ) (key : γ → Str)
    (val : γ → β) (base : List (Str × β)) (h : (dictKeys base).Nodup) :
    (dictKeys (l.foldl (fun m x => dictUpdate m (key x) (val x)) base)).Nodup := by
  induction l generalizing base with
  | nil => simpa
  | cons x l ih =>
    simpa using ih (dictUpdate base (key x) (val x))
      (nodup_dictKeys_dictUpdate base (key x) (val x) h)

theorem extract_variables_nodup (content : Str) :
    (dictKeys (extract_variables content)).Nodup := by
  rw [extract_variables]
  exact nodup_dictKeys_foldl _ (fun nb : Str × Str => nb.1)
    (fun nb : Str × Str => parse_attributes nb.2) [] (by simp [dictKeys])

theorem nodup_dictKeys_dictUpdateAll (base other : List (Str × α))
    (h : (dictKeys base).Nodup) : (dictKeys (dictUpdateAll base other)).Nodup := by
  induction other generalizing base with
  | nil => simpa [dictUpdateAll]
  | cons kv rest ih =>
    simp only [dictUpdateAll, List.foldl_cons] at ih ⊢
    exact ih (dictUpdate base kv.1 kv.2)
      (nodup_dictKeys_dictUpdate base kv.1 kv.2 h)

theorem foldl_parse_file_readable (files : List PyFile) (m : TFModule) :
    files.foldl parse_file m =
      (files.filter (fun f => f.content.isSome)).foldl parse_file m := by
  induction files generalizing m with
  | nil => rfl
  | cons f rest ih =>
    cases hf : f.content with
    | none =>
      have : parse_file m f = m := by rw [parse_file, hf]
      simp [List.filter_cons, hf, List.foldl_cons, this, ih]
    | some content =>
      simp [List.filter_cons, hf, List.foldl_cons, ih]

/-- Claim C4: `parse_module` raises the not-found error exactly when the
directory does not exist; for every existing directory it returns a module
without raising, equal to the aggregation over only the readable files — a
file whose read fails contributes nothing and never fails the whole
aggregation (its exception is caught inside `_parse_file`). -/
theorem parse_module_error_contract (fs : FileSystem) (p : Str) :
    ((∃ e, parse_module fs p = .error e) ↔ fs.dirExists = false) ∧
    (fs.dirExists = true →
      parse_module fs p =
        .ok ((fs.tfFiles.filter (fun f => f.content.isSome)).foldl
          parse_file (emptyModule p))) := by
  constructor
  · constructor
    · rintro ⟨e, he⟩
      by_contra h
      have hd : fs.dirExists = true := by
        cases hdd : fs.dirExists
        · exact absurd hdd h
        · rfl
      rw [parse_module, if_pos hd] at he
      exact Except.noConfusion he
    · intro h
      refine ⟨ParseError.fileNotFound, ?_⟩
      rw [parse_module, h]
      rfl
  · intro h
    rw [parse_module, if_pos h, foldl_parse_file_readable]

/-- Witness for claim C4: a directory with one readable and one unreadable
file aggregates to the readable file's contribution only. -/
theorem parse_module_error_contract_witness :
    parse_module
      ⟨true, [⟨strL "a.tf", some (strL "variable \"x\" \x7b\x7d")⟩,
              ⟨strL "b.tf", none⟩]⟩ (strL "m") =
      .ok { module_path := strL "m", resources := [],
            variables' := [(strL "x", [])], outputs := [], locals := [] } := by
  rw [(parse_module_error_contract
    ⟨true, [⟨strL "a.tf", some (strL "variable \"x\" \x7b\x7d")⟩,
            ⟨strL "b.tf", none⟩]⟩ (strL "m")).2 rfl]
  exact congrArg Except.ok (by decide)

/-- Claim C5: when two files in one directory, aggregated in this order,
both define a variable block with the same name, the module's variable map
holds exactly one entry for that name, and its value is the one extracted
from the later file; no duplicate-detection or conflict error is raised. -/
theorem variable_last_write_wins (p1 p2 c1 c2 mpath vname : Str)
    (a1 a2 : List (Str × Str))
    (h1 : alookup vname (extract_variables c1) = some a1)
    (h2 : alookup vname (extract_variables c2) = some a2) :
    ∃ M, parse_module ⟨true, [⟨p1, some c1⟩, ⟨p2, some c2⟩]⟩ mpath = .ok M ∧
      alookup vname M.variables' = some a2 ∧
      (M.variables'.filter (fun q => q.1 = vname)).length = 1 := by
  refine ⟨_, by rw [parse_module]; rfl, ?_, ?_⟩
  · show alookup vname
      (List.foldl parse_file (emptyModule mpath)
        [⟨p1, some c1⟩, ⟨p2, some c2⟩]).variables' = some a2
    have hvars : (List.foldl parse_file (emptyModule mpath)
        [⟨p1, some c1⟩, ⟨p2, some c2⟩]).variables' =
        dictUpdateAll (dictUpdateAll [] (extract_variables c1))
          (extract_variables c2) := by
      simp [parse_file, emptyModule]
    rw [hvars, alookup_dictUpdateAll,
      lastLookup_eq_alookup_of_nodup _ _ (extract_variables_nodup c2), h2]
  · show (List.filter (fun q => q.1 = vname)
      (List.foldl parse_file (emptyModule mpath)
        [⟨p1, some c1⟩, ⟨p2, some c2⟩]).variables').length = 1
    have hvars : (List.foldl parse_file (emptyModule mpath)
        [⟨p1, some c1⟩, ⟨p2, some c2⟩]).variables' =
        dictUpdateAll (dictUpdateAll [] (extract_variables c1))
          (extract_variables c2) := by
      simp [parse_file, emptyModule]
    rw [hvars]
    apply count_key_of_nodup
    · exact nodup_dictKeys_dictUpdateAll _ _
        (nodup_dictKeys_dictUpdateAll _ _ (by simp [dictKeys]))
    · rw [alookup_dictUpdateAll,
        lastLookup_eq_alookup_of_nodup _ _ (extract_variables_nodup c2), h2]
      simp

/-- Witness for claim C5 at two concrete files defining `variable "region"`
with different bodies. -/
theorem variable_last_write_wins_witness :
    ∃ M, parse_module
        ⟨true, [⟨strL "a.tf", some (strL "variable \"region\" \x7b\n  default = \"a\"\n\x7d")⟩,
                ⟨strL "b.tf", some (strL "variable \"region\" \x7b\n  default = \"b\"\n\x7d")⟩]⟩
        (strL "m") = .ok M ∧
      alookup (strL "region") M.variables' =
        some [(strL "default", strL "\"b\"")] ∧
      (M.variables'.filter (fun q => q.1 = strL "region")).length = 1 :=
  variable_last_write_wins (strL "a.tf") (strL "b.tf")
    (strL "variable \"region\" \x7b\n  default = \"a\"\n\x7d")
    (strL "variable \"region\" \x7b\n  default = \"b\"\n\x7d")
    (strL "m") (strL "region")
    [(strL "default", strL "\"a\"")] [(strL "default", strL "\"b\"")]
    (by decide) (by decide)

/-! ## Wizard data model (`wizard/models.py`) and tfvars round-trip

`wizard/generator.py` itself is not among the sources; only its tests
(`wizard/test_generator.py`) and callers are.  `generate_tfvars_content`
and `parse_tfvars_content` below are therefore modelled from the spec
(§4.3, §6, §8: one region assignment line, one environment assignment
line, one boolean assignment line per registry feature in registry order,
then a `common_tags` map block of `key = "value"` pairs; double quotes in
tag values escaped on generation and unescaped on parse; the parser is a
single-pass line-oriented state machine SCANNING/IN_TAG_BLOCK recognising
exactly those line shapes), with the concrete line formats taken from the
assertions in `test_generator.py` (`aws_region  = "..."` with two-space
alignment, `environment = "..."`, `enable_x = true`, `common_tags = {`). -/

/-- `ModuleInfo` from `wizard/models.py`. -/
structure ModuleInfo where
  name : Str
  display_name : Str
  description : Str
  var_name : Str
deriving DecidableEq, Repr

/-- `AVAILABLE_MODULES` from `wizard/models.py`. -/
def AVAILABLE_MODULES : List ModuleInfo :=
  [ { name := strL "cloudtrail", display_name := strL "CloudTrail",
      description := strL "API logging and audit trail",
      var_name := strL "enable_cloudtrail" },
    { name := strL "config", display_name := strL "AWS Config",
      description := strL "Configuration change tracking",
      var_name := strL "enable_config" },
    { name := strL "guardduty", display_name := strL "GuardDuty",
      description := strL "Threat detection service",
      var_name := strL "enable_guardduty" },
    { name := strL "detective", display_name := strL "Detective",
      description := strL "Security investigation",
      var_name := strL "enable_detective" },
    { name := strL "securityhub", display_name := strL "Security Hub",
      description := strL "Central security dashboard",
      var_name := strL "enable_securityhub" },
    { name := strL "accessanalyzer", display_name := strL "IAM Access Analyzer",
      description := strL "External access analysis",
      var_name := strL "enable_accessanalyzer" },
    { name := strL "inspector", display_name := strL "Inspector",
      description := strL "Vulnerability scanning",
      var_name := strL "enable_inspector" },
    { name := strL "macie", display_name := strL "Macie",
      description := strL "Sensitive data discovery",
      var_name := strL "enable_macie" } ]

/-- `WizardConfig` from `wizard/models.py` (dicts as insertion-ordered
association lists). -/
structure WizardConfig where
  modules : List (Str × Bool)
  region : Str
  environment : Str
  tags : List (Str × Str)
deriving DecidableEq, Repr

/-- The dataclass defaults of `WizardConfig`. -/
def defaultWizardConfig : WizardConfig :=
  { modules := [], region := strL "us-east-1", environment := strL "dev", tags := [] }

/-- `config.modules.get(name, False)`. -/
def modEnabled (c : WizardConfig) (name : Str) : Bool :=
  (alookup name c.modules).getD false

/-- Modelled from the spec: escaping of embedded double quotes in tag
values on generation (each `"` becomes `\"`). -/
def escapeQuotes : Str → Str
  | [] => []
  | c :: r => if c = '"' then '\\' :: '"' :: escapeQuotes r else c :: escapeQuotes r

/-- Modelled from the spec: unescaping on parse (each `\"` becomes `"`,
leftmost-first). -/
def unescapeQuotes : Str → Str
  | [] => []
  | [c] => [c]
  | c :: d :: r =>
    if c = '\\' ∧ d = '"' then '"' :: unescapeQuotes r
    else c :: unescapeQuotes (d :: r)

/-- Lowercase boolean tokens. -/
def boolStr (b : Bool) : Str := if b then strL "true" else strL "false"

/-- An assignment line `<ws1><key><ws2>=<ws3><rhs>`. -/
def mkAssignLine (ws1 k ws2 ws3 rhs : Str) : Str :=
  ws1 ++ (k ++ (ws2 ++ ('=' :: (ws3 ++ rhs))))

/-- Modelled from the spec: the generated tfvars lines, in the fixed
deterministic order of §4.3/§6. -/
def tfvarsLines (c : WizardConfig) : List Str :=
  mkAssignLine [] (strL "aws_region") [' ', ' '] [' ']
      ('"' :: (c.region ++ ['"'])) ::
  mkAssignLine [] (strL "environment") [' '] [' ']
      ('"' :: (c.environment ++ ['"'])) ::
  (AVAILABLE_MODULES.map fun m =>
      mkAssignLine [] m.var_name [' '] [' '] (boolStr (modEnabled c m.name))) ++
  (mkAssignLine [] (strL "common_tags") [' '] [' '] ['{'] ::
    (c.tags.map fun kv =>
      mkAssignLine [' ', ' '] kv.1 [' '] [' ']
        ('"' :: (escapeQuotes kv.2 ++ ['"']))) ++
    [['}']])

/-- Modelled from the spec: `generate_tfvars_content`. -/
def generate_tfvars_content (c : WizardConfig) : Str := joinNl (tfvarsLines c)

/-- The right-hand sides the parser recognises. -/
inductive RHSVal where
  | quoted (v : Str)
  | boolv (b : Bool)
  | openBrace
deriving DecidableEq, Repr

/-- Modelled from the spec: classify an assignment right-hand side as a
bare boolean token, the map-block opener, or a quoted string (whose
escaped quotes are unescaped). -/
def parseRHS (rhs : Str) : Option RHSVal :=
  if rhs = strL "true" then some (RHSVal.boolv true)
  else if rhs = strL "false" then some (RHSVal.boolv false)
  else if rhs = ['{'] then some RHSVal.openBrace
  else
    match rhs with
    | c :: rest =>
      if c = '"' ∧ rest.getLast? = some '"' then
        some (RHSVal.quoted (unescapeQuotes rest.dropLast))
      else none
    | [] => none

/-- Modelled from the spec: parse one line as `key = rhs` (identifier key,
optional whitespace). -/
def parseLine (l : Str) : Option (Str × RHSVal) :=
  let kr := spanP isWordChar (spanP isPySpace l).2
  let t3 := (spanP isPySpace kr.2).2
  if kr.1 = [] then none
  else if t3.head? = some '=' then
    (parseRHS ((spanP isPySpace t3.tail).2)).map (fun r => (kr.1, r))
  else none

/-- Modelled from the spec: one step of the SCANNING / IN_TAG_BLOCK state
machine, routing `aws_region`/`environment` to the scalar fields,
registered flag names to the module map, and in-block pairs to the tag
map; unrecognised lines are skipped. -/
def parseStep (st : Bool × WizardConfig) (line : Str) : Bool × WizardConfig :=
  if st.1 then
    if stripStr line = ['}'] then (false, st.2)
    else
      match parseLine line with
      | some (k, RHSVal.quoted v) =>
        (true, { st.2 with tags := dictUpdate st.2.tags k v })
      | _ => (true, st.2)
  else
    match parseLine line with
    | some (k, RHSVal.quoted v) =>
      if k = strL "aws_region" then (false, { st.2 with region := v })
      else if k = strL "environment" then (false, { st.2 with environment := v })
      else (false, st.2)
    | some (k, RHSVal.boolv b) =>
      match AVAILABLE_MODULES.find? (fun m => decide (m.var_name = k)) with
      | some m => (false, { st.2 with modules := dictUpdate st.2.modules m.name b })
      | none => (false, st.2)
    | some (k, RHSVal.openBrace) =>
      if k = strL "common_tags" then (true, st.2) else (false, st.2)
    | none => (false, st.2)

/-- Modelled from the spec: `parse_tfvars_content`, a single forward pass
over the lines starting from the dataclass defaults. -/
def parse_tfvars_content (text : Str) : WizardConfig :=
  ((splitNl text).foldl parseStep (false, defaultWizardConfig)).2

/-- A line whose parse is a bare boolean assignment. -/
def isBoolAssign (l : Str) : Bool :=
  match parseLine l with
  | some (_, RHSVal.boolv _) => true
  | _ => false

/-- The tag-key shape the wizard's tests generate: `[a-zA-Z][a-zA-Z0-9_]*`. -/
def isTagKey (k : Str) : Bool :=
  match k with
  | [] => false
  | c :: r => isAlphaC c && r.all isWordChar

theorem escapeQuotes_eq_nil_iff (v : Str) : escapeQuotes v = [] ↔ v = [] := by
  cases v with
  | nil => simp [escapeQuotes]
  | cons c r =>
    constructor
    · intro h
      by_cases hc : c = '"' <;> simp [escapeQuotes, hc] at h
    · intro h
      exact absurd h (by simp)

theorem escapeQuotes_head_ne_quote (v : Str) (d : Char) (X : Str)
    (h : escapeQuotes v = d :: X) : d ≠ '"' := by
  cases v with
  | nil => simp [escapeQuotes] at h
  | cons c r =>
    by_cases hc : c = '"'
    · simp [escapeQuotes, hc] at h
      rw [← h.1]
      decide
    · simp [escapeQuotes, hc] at h
      rw [← h.1]
      exact hc

theorem unescape_escape (v : Str) : unescapeQuotes (escapeQuotes v) = v := by
  induction v with
  | nil => simp [escapeQuotes, unescapeQuotes]
  | cons c r ih =>
    by_cases hc : c = '"'
    · subst hc
      simp only [escapeQuotes, if_pos, ite_true]
      rw [show unescapeQuotes ('\\' :: '"' :: escapeQuotes r) =
        '"' :: unescapeQuotes (escapeQuotes r) from by
          simp [unescapeQuotes], ih]
    · simp only [escapeQuotes, hc, if_neg, ite_false, not_false_iff]
      cases he : escapeQuotes r with
      | nil =>
        have hr : r = [] := (escapeQuotes_eq_nil_iff r).mp he
        subst hr
        simp [unescapeQuotes]
      | cons d X =>
        have hd : d ≠ '"' := escapeQuotes_head_ne_quote r d X he
        rw [show unescapeQuotes (c :: d :: X) = c :: unescapeQuotes (d :: X) from by
          simp [unescapeQuotes, hd]]
        rw [← he, ih]

theorem unescape_of_no_backslash (v : Str) (h : '\\' ∉ v) : unescapeQuotes v = v := by
  induction v with
  | nil => simp [unescapeQuotes]
  | cons c r ih =>
    have hc : c ≠ '\\' := fun hcc => h (by simp [hcc])
    cases r with
    | nil => simp [unescapeQuotes]
    | cons d r' =>
      rw [show unescapeQuotes (c :: d :: r') = c :: unescapeQuotes (d :: r') from by
        simp [unescapeQuotes, hc]]
      rw [ih (fun hm => h (List.mem_cons_of_mem _ hm))]

theorem escape_mem (v : Str) (x : Char) (h : x ∈ escapeQuotes v) :
    x = '\\' ∨ x ∈ v := by
  induction v with
  | nil => simp [escapeQuotes] at h
  | cons c r ih =>
    by_cases hc : c = '"'
    · subst hc
      simp only [escapeQuotes, if_pos, ite_true, List.mem_cons] at h
      rcases h with rfl | rfl | h
      · exact Or.inl rfl
      · exact Or.inr (by simp)
      · rcases ih h with h2 | h2
        · exact Or.inl h2
        · exact Or.inr (by simp [h2])
    · simp only [escapeQuotes, hc, if_neg, ite_false, not_false_iff,
        List.mem_cons] at h
      rcases h with rfl | h
      · exact Or.inr (by simp)
      · rcases ih h with h2 | h2
        · exact Or.inl h2
        · exact Or.inr (by simp [h2])

theorem word_not_space (c : Char) (h : isWordChar c = true) : isPySpace c = false := by
  by_contra h2
  rcases isPySpace_elim c (by simpa using h2) with rfl | rfl | rfl | rfl | rfl | rfl <;>
    exact absurd h (by decide)

theorem space_not_word (c : Char) (h : isPySpace c = true) : isWordChar c = false := by
  rcases isPySpace_elim c h with rfl | rfl | rfl | rfl | rfl | rfl <;> decide

theorem parseRHS_quoted (v : Str) :
    parseRHS ('"' :: (v ++ ['"'])) = some (RHSVal.quoted (unescapeQuotes v)) := by
  have ht : ¬('"' :: (v ++ ['"']) = strL "true") := by
    intro h
    have := congrArg (fun l => l.head?) h
    simp [strL] at this
  have hf : ¬('"' :: (v ++ ['"']) = strL "false") := by
    intro h
    have := congrArg (fun l => l.head?) h
    simp [strL] at this
  have hb : ¬('"' :: (v ++ ['"']) = ['{']) := by
    intro h
    have := congrArg (fun l => l.head?) h
    simp at this
  rw [parseRHS]
  simp only [ht, hf, hb, if_neg, ite_false, not_false_iff]
  have hlast : (v ++ ['"']).getLast? = some '"' := by simp
  have hdl : (v ++ ['"']).dropLast = v := by simp
  simp [hlast, hdl]

theorem parseRHS_bool (b : Bool) : parseRHS (boolStr b) = some (RHSVal.boolv b) := by
  cases b <;> decide

theorem parseRHS_boolv_inv (rhs : Str) (b : Bool)
    (h : parseRHS rhs = some (RHSVal.boolv b)) : rhs = boolStr b := by
  rw [parseRHS.eq_def] at h
  by_cases h1 : rhs = strL "true"
  · rw [if_pos h1] at h
    simp at h
    rw [h1]
    subst h
    rfl
  · rw [if_neg h1] at h
    by_cases h2 : rhs = strL "false"
    · rw [if_pos h2] at h
      simp at h
      rw [h2]
      subst h
      rfl
    · rw [if_neg h2] at h
      by_cases h3 : rhs = ['{']
      · rw [if_pos h3] at h
        simp at h
      · rw [if_neg h3] at h
        cases rhs with
        | nil => simp at h
        | cons c rest =>
          by_cases h4 : c = '"' ∧ rest.getLast? = some '"'
          · simp [h4] at h
          · simp [h4] at h

theorem parseLine_mk (ws1 k ws2 ws3 rhs : Str)
    (hw1 : ∀ x ∈ ws1, isPySpace x = true)
    (hk1 : k ≠ []) (hk2 : ∀ x ∈ k, isWordChar x = true)
    (hw2 : ∀ x ∈ ws2, isPySpace x = true)
    (hw3 : ∀ x ∈ ws3, isPySpace x = true)
    (hrhs : ∀ x ∈ rhs.take 1, isPySpace x = false) :
    parseLine (mkAssignLine ws1 k ws2 ws3 rhs) =
      (parseRHS rhs).map (fun r => (k, r)) := by
  obtain ⟨c, k'', rfl⟩ : ∃ c k'', k = c :: k'' := by
    cases k with
    | nil => exact absurd rfl hk1
    | cons c k'' => exact ⟨c, k'', rfl⟩
  have s1 : spanP isPySpace (mkAssignLine ws1 (c :: k'') ws2 ws3 rhs) =
      (ws1, (c :: k'') ++ (ws2 ++ ('=' :: (ws3 ++ rhs)))) := by
    rw [mkAssignLine]
    exact spanP_of_all _ _ _ hw1
      (by intro x hx
          simp at hx
          subst hx
          exact word_not_space _ (hk2 _ (by simp)))
  have s2 : spanP isWordChar ((c :: k'') ++ (ws2 ++ ('=' :: (ws3 ++ rhs)))) =
      (c :: k'', ws2 ++ ('=' :: (ws3 ++ rhs))) := by
    refine spanP_of_all _ _ _ hk2 ?_
    cases ws2 with
    | nil => intro x hx; simp at hx; subst hx; decide
    | cons w ws2' =>
      intro x hx
      simp at hx
      subst hx
      exact space_not_word _ (hw2 _ (by simp))
  have s3 : spanP isPySpace (ws2 ++ ('=' :: (ws3 ++ rhs))) =
      (ws2, '=' :: (ws3 ++ rhs)) :=
    spanP_of_all _ _ _ hw2 (by intro x hx; simp at hx; subst hx; decide)
  have s4 : spanP isPySpace (ws3 ++ rhs) = (ws3, rhs) :=
    spanP_of_all _ _ _ hw3 hrhs
  rw [parseLine]
  simp only [s1, s2, s3, s4]
  simp [s4]

theorem getLast?_span2 (p : Char → Bool) (x : Str) (h : (spanP p x).2 ≠ []) :
    x.getLast? = ((spanP p x).2).getLast? := by
  have h2 := getLast?_append_right (spanP p x).1 (spanP p x).2 h
  rw [spanP_append_eq] at h2
  exact h2

theorem getLast?_cons_of_ne (a : Char) (X : Str) (h : X ≠ []) :
    (a :: X).getLast? = X.getLast? := by
  rw [show a :: X = [a] ++ X from rfl]
  exact getLast?_append_right [a] X h

theorem getLast?_mkAssign (ws1 k ws2 ws3 rhs : Str) (h : rhs ≠ []) :
    (mkAssignLine ws1 k ws2 ws3 rhs).getLast? = rhs.getLast? := by
  rw [mkAssignLine]
  rw [getLast?_append_right ws1 _ (by simp),
    getLast?_append_right k _ (by simp),
    getLast?_append_right ws2 _ (by simp),
    getLast?_cons_of_ne '=' _ (by simp [h]),
    getLast?_append_right ws3 rhs h]

theorem boolStr_ne_nil (b : Bool) : boolStr b ≠ [] := by cases b <;> decide

theorem boolStr_getLast (b : Bool) : (boolStr b).getLast? = some 'e' := by
  cases b <;> decide

theorem parseLine_boolv_getLast (l : Str) (k : Str) (b : Bool)
    (h : parseLine l = some (k, RHSVal.boolv b)) : l.getLast? = some 'e' := by
  rw [parseLine] at h
  by_cases hk : (spanP isWordChar (spanP isPySpace l).2).1 = []
  · simp [hk] at h
  · rw [if_neg hk] at h
    by_cases hh :
        ((spanP isPySpace (spanP isWordChar (spanP isPySpace l).2).2).2).head? =
          some '=' 
    · rw [if_pos hh] at h
      cases hr : parseRHS
          ((spanP isPySpace
            ((spanP isPySpace (spanP isWordChar (spanP isPySpace l).2).2).2).tail).2) with
      | none => rw [hr] at h; simp at h
      | some r =>
        rw [hr] at h
        have hrv : r = RHSVal.boolv b := by
          have h2 := congrArg (fun o => o.map Prod.snd) h
          simpa using h2
        subst hrv
        have hrhs := parseRHS_boolv_inv _ _ hr
        -- name the pieces
        have ht3 :
            (spanP isPySpace (spanP isWordChar (spanP isPySpace l).2).2).2 =
            '=' :: ((spanP isPySpace (spanP isWordChar (spanP isPySpace l).2).2).2).tail := by
          cases hcase : (spanP isPySpace (spanP isWordChar (spanP isPySpace l).2).2).2 with
          | nil => rw [hcase] at hh; simp at hh
          | cons c t4 =>
            rw [hcase] at hh
            simp at hh
            subst hh
            rfl
        have hrhsne : (spanP isPySpace
            ((spanP isPySpace (spanP isWordChar (spanP isPySpace l).2).2).2).tail).2 ≠ [] := by
          rw [hrhs]
          exact boolStr_ne_nil b
        have step1 : l.getLast? = ((spanP isPySpace l).2).getLast? := by
          refine getLast?_span2 _ _ ?_
          intro hmm
          apply hk
          rw [hmm]
          rfl
        have step2 : ((spanP isPySpace l).2).getLast? =
            ((spanP isWordChar (spanP isPySpace l).2).2).getLast? := by
          refine getLast?_span2 _ _ ?_
          intro hmm
          rw [hmm] at ht3
          rw [show spanP isPySpace [] = ([], []) from rfl] at ht3
          simp at ht3
        have step3 : ((spanP isWordChar (spanP isPySpace l).2).2).getLast? =
            ((spanP isPySpace (spanP isWordChar (spanP isPySpace l).2).2).2).getLast? := by
          refine getLast?_span2 _ _ ?_
          rw [ht3]
          simp
        have step4 :
            ((spanP isPySpace (spanP isWordChar (spanP isPySpace l).2).2).2).getLast? =
            (((spanP isPySpace (spanP isWordChar (spanP isPySpace l).2).2).2).tail).getLast? := by
          conv_lhs => rw [ht3]
          refine getLast?_cons_of_ne '=' _ ?_
          intro hmm
          rw [hmm] at hrhsne
          exact hrhsne (by rfl)
        have step5 :
            (((spanP isPySpace (spanP isWordChar (spanP isPySpace l).2).2).2).tail).getLast? =
            ((spanP isPySpace
              ((spanP isPySpace (spanP isWordChar (spanP isPySpace l).2).2).2).tail).2).getLast? :=
          getLast?_span2 _ _ hrhsne
        rw [step1, step2, step3, step4, step5, hrhs, boolStr_getLast]
    · rw [if_neg hh] at h
      simp at h

/-- A line whose last character is not `e` cannot parse as a bare boolean
assignment (`true`/`false` both end in `e`). -/
theorem isBoolAssign_false_of_getLast (l : Str) (h : l.getLast? ≠ some 'e') :
    isBoolAssign l = false := by
  rw [isBoolAssign]
  cases hp : parseLine l with
  | none => rfl
  | some kr =>
    obtain ⟨k, r⟩ := kr
    cases r with
    | quoted v => rfl
    | openBrace => rfl
    | boolv b => exact absurd (parseLine_boolv_getLast l k b hp) h

theorem tagKey_fields (k : Str) (h : isTagKey k = true) :
    k ≠ [] ∧ ∀ x ∈ k, isWordChar x = true := by
  cases k with
  | nil => simp [isTagKey] at h
  | cons c r =>
    simp only [isTagKey, Bool.and_eq_true, List.all_eq_true] at h
    refine ⟨by simp, ?_⟩
    intro x hx
    rcases List.mem_cons.mp hx with rfl | hx
    · simp [isWordChar, isAlnumC, h.1]
    · exact h.2 x hx

theorem alpha_not_space (c : Char) (h : isAlphaC c = true) : isPySpace c = false := by
  by_contra h2
  rcases isPySpace_elim c (by simpa using h2) with rfl | rfl | rfl | rfl | rfl | rfl <;>
    exact absurd h (by decide)

theorem dropWhile_all_prefix (p : Char → Bool) (a b : Str)
    (ha : ∀ x ∈ a, p x = true) : (a ++ b).dropWhile p = b.dropWhile p := by
  induction a with
  | nil => rfl
  | cons c a ih =>
    simp only [List.cons_append, List.dropWhile_cons, ha c (by simp)]
    exact ih (fun x hx => ha x (by simp [hx]))

theorem stripStr_ws_prefix (a b : Str) (ha : ∀ x ∈ a, isPySpace x = true) :
    stripStr (a ++ b) = stripStr b := by
  rw [stripStr, stripStr, dropWhile_all_prefix _ _ _ ha]

theorem strip_tag_line (k ev : Str) (hk : isTagKey k = true) :
    stripStr (mkAssignLine [' ', ' '] k [' '] [' '] ('"' :: (ev ++ ['"']))) =
      k ++ ([' '] ++ ('=' :: ([' '] ++ ('"' :: (ev ++ ['"']))))) := by
  obtain ⟨c, k'', rfl⟩ : ∃ c k'', k = c :: k'' := by
    cases k with
    | nil => simp [isTagKey] at hk
    | cons c k'' => exact ⟨c, k'', rfl⟩
  have hca : isAlphaC c = true := by
    simp only [isTagKey, Bool.and_eq_true] at hk
    exact hk.1
  rw [mkAssignLine, stripStr_ws_prefix _ _ (by decide)]
  apply stripStr_eq_self
  · intro x hx
    simp at hx
    subst hx
    exact alpha_not_space _ hca
  · intro x hx
    have hre : (c :: k'') ++ ([' '] ++ ('=' :: ([' '] ++ ('"' :: (ev ++ ['"']))))) =
        ((c :: k'') ++ ([' '] ++ ('=' :: ([' '] ++ ('"' :: ev))))) ++ ['"'] := by
      simp
    rw [hre, List.reverse_append] at hx
    simp at hx
    subst hx
    decide

theorem strip_tag_line_ne_brace (k ev : Str) (hk : isTagKey k = true) :
    stripStr (mkAssignLine [' ', ' '] k [' '] [' '] ('"' :: (ev ++ ['"']))) ≠ ['}'] := by
  rw [strip_tag_line k ev hk]
  obtain ⟨c, k'', rfl⟩ : ∃ c k'', k = c :: k'' := by
    cases k with
    | nil => simp [isTagKey] at hk
    | cons c k'' => exact ⟨c, k'', rfl⟩
  have hca : isAlphaC c = true := by
    simp only [isTagKey, Bool.and_eq_true] at hk
    exact hk.1
  intro heq
  rw [List.cons_append] at heq
  have hc := (List.cons.injEq _ _ _ _).mp heq
  rw [hc.1] at hca
  exact absurd hca (by decide)

/-- Side conditions a registry entry satisfies (checked by `decide` for the
concrete registry): usable flag name, and reverse lookup hits itself. -/
def goodModule (m : ModuleInfo) : Bool :=
  decide (m.var_name ≠ []) && m.var_name.all isWordChar &&
    decide (AVAILABLE_MODULES.find? (fun mm => decide (mm.var_name = m.var_name)) = some m)

theorem foldl_module_lines (ms : List ModuleInfo) (g : ModuleInfo → Bool)
    (cfg : WizardConfig) (hms : ∀ m ∈ ms, goodModule m = true) :
    List.foldl parseStep (false, cfg)
      (ms.map fun m => mkAssignLine [] m.var_name [' '] [' '] (boolStr (g m))) =
    (false, { cfg with
      modules := ms.foldl (fun acc m => dictUpdate acc m.name (g m)) cfg.modules }) := by
  induction ms generalizing cfg with
  | nil => rfl
  | cons m ms' ih =>
    have hm := hms m (by simp)
    simp only [goodModule, Bool.and_eq_true, decide_eq_true_iff,
      List.all_eq_true] at hm
    obtain ⟨⟨hne, hword⟩, hfind⟩ := hm
    have hline := parseLine_mk [] m.var_name [' '] [' '] (boolStr (g m))
      (by simp) hne hword (by decide) (by decide)
      (by cases g m <;> decide)
    rw [List.map_cons, List.foldl_cons]
    have hstep : parseStep (false, cfg)
        (mkAssignLine [] m.var_name [' '] [' '] (boolStr (g m))) =
        (false, { cfg with modules := dictUpdate cfg.modules m.name (g m) }) := by
      rw [parseStep]
      simp only [if_neg, Bool.false_eq_true, not_false_iff]
      rw [hline, parseRHS_bool]
      simp only [Option.map]
      rw [hfind]
    rw [hstep, ih _ (fun mm hmm => hms mm (by simp [hmm]))]
    simp

theorem alookup_module_fold_other (ms : List ModuleInfo) (g : ModuleInfo → Bool)
    (base : List (Str × Bool)) (k : Str) (h : ∀ m ∈ ms, m.name ≠ k) :
    alookup k (ms.foldl (fun acc m => dictUpdate acc m.name (g m)) base) =
      alookup k base := by
  induction ms generalizing base with
  | nil => rfl
  | cons m ms' ih =>
    rw [List.foldl_cons, ih _ (fun mm hmm => h mm (by simp [hmm])),
      alookup_dictUpdate_ne _ _ _ _ (h m (by simp))]

theorem alookup_module_fold (ms : List ModuleInfo) (g : ModuleInfo → Bool)
    (base : List (Str × Bool)) (m₀ : ModuleInfo) (hmem : m₀ ∈ ms)
    (hnd : (ms.map fun m => m.name).Nodup) :
    alookup m₀.name (ms.foldl (fun acc m => dictUpdate acc m.name (g m)) base) =
      some (g m₀) := by
  induction ms generalizing base with
  | nil => simp at hmem
  | cons m ms' ih =>
    simp only [List.map_cons, List.nodup_cons] at hnd
    rcases List.mem_cons.mp hmem with rfl | hmem'
    · rw [List.foldl_cons,
        alookup_module_fold_other ms' g _ m₀.name
          (fun mm hmm => by
            intro heq
            exact hnd.1 (by rw [← heq]; exact List.mem_map.mpr ⟨mm, hmm, rfl⟩)),
        alookup_dictUpdate_self]
    · rw [List.foldl_cons, ih _ hmem' hnd.2]

theorem foldl_tag_lines (ts : List (Str × Str)) (cfg : WizardConfig)
    (hts : ∀ kv ∈ ts, isTagKey kv.1 = true ∧ '\n' ∉ kv.2) :
    List.foldl parseStep (true, cfg)
      (ts.map fun kv =>
        mkAssignLine [' ', ' '] kv.1 [' '] [' ']
          ('"' :: (escapeQuotes kv.2 ++ ['"']))) =
    (true, { cfg with
      tags := ts.foldl (fun acc kv => dictUpdate acc kv.1 kv.2) cfg.tags }) := by
  induction ts generalizing cfg with
  | nil => rfl
  | cons kv ts' ih =>
    obtain ⟨hkey, hval⟩ := hts kv (by simp)
    obtain ⟨hkne, hkword⟩ := tagKey_fields kv.1 hkey
    have hline := parseLine_mk [' ', ' '] kv.1 [' '] [' ']
      ('"' :: (escapeQuotes kv.2 ++ ['"']))
      (by decide) hkne hkword (by decide) (by decide)
      (by intro x hx; simp at hx; subst hx; decide)
    rw [List.map_cons, List.foldl_cons]
    have hstep : parseStep (true, cfg)
        (mkAssignLine [' ', ' '] kv.1 [' '] [' ']
          ('"' :: (escapeQuotes kv.2 ++ ['"']))) =
        (true, { cfg with tags := dictUpdate cfg.tags kv.1 kv.2 }) := by
      rw [parseStep]
      simp only [if_pos]
      rw [if_neg (strip_tag_line_ne_brace kv.1 (escapeQuotes kv.2) hkey)]
      rw [hline, parseRHS_quoted, unescape_escape]
      simp
    rw [hstep, ih _ (fun kv' hkv' => hts kv' (by simp [hkv']))]
    simp

theorem region_no_special (r : Str) (h : regionMatchCore r = true) :
    '"' ∉ r ∧ '\\' ∉ r ∧ '\n' ∉ r := by
  have hc := RegionFull_chars r ((regionMatchCore_iff r).mp h)
  refine ⟨?_, ?_, ?_⟩ <;> intro hm <;> exact absurd (hc _ hm) (by decide)

theorem env_no_special (e : Str) (h : envMatchCore e = true) :
    '"' ∉ e ∧ '\\' ∉ e ∧ '\n' ∉ e := by
  have hc : ∀ c ∈ e, isEnvChar c = true := by
    simp only [envMatchCore, Bool.and_eq_true, List.all_eq_true] at h
    exact h.2
  refine ⟨?_, ?_, ?_⟩ <;> intro hm <;> exact absurd (hc _ hm) (by decide)

theorem tagKey_no_nl (k : Str) (h : isTagKey k = true) : '\n' ∉ k := by
  intro hm
  exact absurd ((tagKey_fields k h).2 '\n' hm) (by decide)

theorem escape_no_nl (v : Str) (h : '\n' ∉ v) : '\n' ∉ escapeQuotes v := by
  intro hm
  rcases escape_mem v '\n' hm with h2 | h2
  · exact absurd h2 (by decide)
  · exact h h2

theorem no_nl_mkAssign (ws1 k ws2 ws3 rhs : Str)
    (h1 : '\n' ∉ ws1) (h2 : '\n' ∉ k) (h3 : '\n' ∉ ws2) (h4 : '\n' ∉ ws3)
    (h5 : '\n' ∉ rhs) : '\n' ∉ mkAssignLine ws1 k ws2 ws3 rhs := by
  rw [mkAssignLine]
  intro hm
  simp only [List.mem_append, List.mem_cons] at hm
  rcases hm with hm | hm | hm | hm | hm | hm
  · exact h1 hm
  · exact h2 hm
  · exact h3 hm
  · exact absurd hm (by decide)
  · exact h4 hm
  · exact h5 hm

theorem tfvarsLines_no_nl (c : WizardConfig)
    (hr : '\n' ∉ c.region) (he : '\n' ∉ c.environment)
    (ht : ∀ kv ∈ c.tags, '\n' ∉ kv.1 ∧ '\n' ∉ kv.2) :
    ∀ l ∈ tfvarsLines c, '\n' ∉ l := by
  intro l hl
  rw [tfvarsLines] at hl
  rcases List.mem_cons.mp hl with rfl | hl
  · refine no_nl_mkAssign _ _ _ _ _ (by decide) (by decide) (by decide) (by decide) ?_
    intro hmm
    simp at hmm
    exact hr hmm
  rcases List.mem_cons.mp hl with rfl | hl
  · refine no_nl_mkAssign _ _ _ _ _ (by decide) (by decide) (by decide) (by decide) ?_
    intro hmm
    simp at hmm
    exact he hmm
  rcases List.mem_append.mp hl with hmap | hl
  · obtain ⟨m, hm, rfl⟩ := List.mem_map.mp hmap
    refine no_nl_mkAssign _ _ _ _ _ (by decide) ?_ (by decide) (by decide) ?_
    · have hv : ∀ mm ∈ AVAILABLE_MODULES, '\n' ∉ mm.var_name := by decide
      exact hv m hm
    · cases modEnabled c m.name <;> decide
  rcases List.mem_cons.mp hl with rfl | hl
  · decide
  rcases List.mem_append.mp hl with htag | hl
  · obtain ⟨kv, hkv, rfl⟩ := List.mem_map.mp htag
    refine no_nl_mkAssign _ _ _ _ _ (by decide) ?_ (by decide) (by decide) ?_
    · exact (ht kv hkv).1
    · intro hmm
      simp at hmm
      exact escape_no_nl kv.2 (ht kv hkv).2 hmm
  · rw [List.mem_singleton] at hl
    subst hl
    decide

theorem parseStep_quoted_scalar (cfg : WizardConfig) (k r : Str)
    (hk1 : k ≠ []) (hk2 : ∀ x ∈ k, isWordChar x = true)
    (hb : '\\' ∉ r) (ws2 : Str) (hws2 : ∀ x ∈ ws2, isPySpace x = true) :
    parseStep (false, cfg) (mkAssignLine [] k ws2 [' '] ('"' :: (r ++ ['"']))) =
      (false,
        if k = strL "aws_region" then { cfg with region := r }
        else if k = strL "environment" then { cfg with environment := r }
        else cfg) := by
  have hline := parseLine_mk [] k ws2 [' '] ('"' :: (r ++ ['"']))
    (by simp) hk1 hk2 hws2 (by decide)
    (by intro x hx; simp at hx; subst hx; decide)
  rw [parseStep]
  rw [if_neg (by simp)]
  rw [hline, parseRHS_quoted, unescape_of_no_backslash r hb]
  by_cases h1 : k = strL "aws_region"
  · simp only [Option.map_some', if_pos h1]
  · by_cases h2 : k = strL "environment"
    · simp only [Option.map_some', if_neg h1, if_pos h2]
    · simp only [Option.map_some', if_neg h1, if_neg h2]

theorem parseStep_common_tags (cfg : WizardConfig) :
    parseStep (false, cfg)
      (mkAssignLine [] (strL "common_tags") [' '] [' '] ['{']) = (true, cfg) := by
  rfl

theorem parseStep_close_brace (cfg : WizardConfig) :
    parseStep (true, cfg) ['}'] = (false, cfg) := by
  rfl

/-! ### Claim C1: the generate/parse round trip -/

/-- Claim C1 (counterexample): a tag key that is non-empty after stripping,
and therefore accepted by `validate_tag_key`, may still contain an interior
space; the generator emits it, the parser's identifier scan rejects the
line, and the tag pair is lost even though the region, the environment and
the tag value satisfy every validation the claim lists. -/
theorem tag_key_space_breaks_round_trip :
    regionMatchCore (strL "us-east-1") = true ∧
    envMatchCore (strL "dev") = true ∧
    validate_tag_key (PyVal.str (strL "bad key")) = true ∧
    ('\n' ∉ strL "v") ∧
    (parse_tfvars_content (generate_tfvars_content
      { modules := [], region := strL "us-east-1",
        environment := strL "dev",
        tags := [(strL "bad key", strL "v")] })).tags = [] := by
  exact ⟨by decide, by decide, by decide, by decide, by decide⟩

/-- Claim C1 (amended): for every config whose region and environment match
the validators' anchored patterns, whose tag keys have the identifier shape
the wizard's own tests generate (a letter followed by letters, digits or
underscores, pairwise distinct), and whose tag values are free of literal
newlines, parsing the generated tfvars text recovers the region, the
environment, every registered feature's enabled flag, and the exact tag
map, with embedded double quotes escaped on generation and recovered
unescaped on parse. -/
theorem tfvars_round_trip (c : WizardConfig)
    (hr : regionMatchCore c.region = true)
    (he : envMatchCore c.environment = true)
    (ht : ∀ kv ∈ c.tags, isTagKey kv.1 = true ∧ '\n' ∉ kv.2)
    (hnd : (dictKeys c.tags).Nodup) :
    (parse_tfvars_content (generate_tfvars_content c)).region = c.region ∧
    (parse_tfvars_content (generate_tfvars_content c)).environment =
      c.environment ∧
    (∀ m ∈ AVAILABLE_MODULES,
      modEnabled (parse_tfvars_content (generate_tfvars_content c)) m.name =
        modEnabled c m.name) ∧
    (parse_tfvars_content (generate_tfvars_content c)).tags = c.tags := by
  have hbr : '\\' ∉ c.region := (region_no_special c.region hr).2.1
  have hbe : '\\' ∉ c.environment := (env_no_special c.environment he).2.1
  have hsplit : splitNl (generate_tfvars_content c) = tfvarsLines c := by
    rw [generate_tfvars_content]
    refine splitNl_joinNl _ ?_ ?_
    · rw [tfvarsLines]; exact List.cons_ne_nil _ _
    · exact tfvarsLines_no_nl c (region_no_special c.region hr).2.2
        (env_no_special c.environment he).2.2
        (fun kv hkv => ⟨tagKey_no_nl kv.1 (ht kv hkv).1, (ht kv hkv).2⟩)
  have hfold : parse_tfvars_content (generate_tfvars_content c) =
      { modules := AVAILABLE_MODULES.foldl
          (fun acc m => dictUpdate acc m.name (modEnabled c m.name)) [],
        region := c.region, environment := c.environment,
        tags := dictUpdateAll [] c.tags } := by
    rw [parse_tfvars_content, hsplit, tfvarsLines]
    simp only [List.foldl_cons, List.foldl_append, List.foldl_nil]
    rw [parseStep_quoted_scalar defaultWizardConfig _ _ (by decide) (by decide)
        hbr _ (by decide),
      if_pos rfl]
    rw [parseStep_quoted_scalar _ _ _ (by decide) (by decide) hbe _ (by decide),
      if_neg (by decide), if_pos rfl]
    rw [foldl_module_lines AVAILABLE_MODULES (fun m => modEnabled c m.name) _
        (by decide)]
    rw [parseStep_common_tags]
    rw [foldl_tag_lines c.tags _ ht]
    rw [parseStep_close_brace]
    rfl
  refine ⟨by rw [hfold], by rw [hfold], ?_, ?_⟩
  · intro m hm
    rw [hfold]
    show (alookup m.name (AVAILABLE_MODULES.foldl
      (fun acc mm => dictUpdate acc mm.name (modEnabled c mm.name)) [])).getD
        false = modEnabled c m.name
    rw [alookup_module_fold AVAILABLE_MODULES _ [] m hm (by decide)]
    rfl
  · rw [hfold]
    show dictUpdateAll [] c.tags = c.tags
    rw [dictUpdateAll_fresh [] c.tags (fun k _ => rfl) hnd]
    rfl

/-- A concrete validated config exercising the round trip. -/
def cRoundTrip : WizardConfig :=
  { modules := [(strL "cloudtrail", true)], region := strL "us-east-1",
    environment := strL "prod", tags := [(strL "Team", strL "sec")] }

/-- Witness for the amended claim C1 at a concrete validated config. -/
theorem tfvars_round_trip_witness :
    (parse_tfvars_content (generate_tfvars_content cRoundTrip)).region =
      cRoundTrip.region ∧
    (parse_tfvars_content (generate_tfvars_content cRoundTrip)).environment =
      cRoundTrip.environment ∧
    (∀ m ∈ AVAILABLE_MODULES,
      modEnabled (parse_tfvars_content (generate_tfvars_content cRoundTrip))
        m.name = modEnabled cRoundTrip m.name) ∧
    (parse_tfvars_content (generate_tfvars_content cRoundTrip)).tags =
      cRoundTrip.tags :=
  tfvars_round_trip cRoundTrip (by decide) (by decide) (by decide) (by decide)

/-! ### Claim C6: one boolean flag line per registered feature -/

/-- Modelled from the spec: a config whose single tag value embeds a literal
newline followed by a forged flag assignment. -/
def cInj : WizardConfig :=
  { modules := [], region := strL "us-east-1", environment := strL "dev",
    tags := [(strL "K",
      'v' :: '\n' :: (strL "enable_cloudtrail = true" ++ ['\n', 'w']))] }

/-- Claim C6 (counterexample): with a tag value containing a literal
newline, the generated text acquires a ninth boolean assignment line, one
for the registered flag `enable_cloudtrail` with value `true` even though
the feature is disabled in the config, so the text does not contain exactly
one boolean flag line per feature carrying the configured value. -/
theorem newline_tag_value_forges_flag_line :
    modEnabled cInj (strL "cloudtrail") = false ∧
    strL "enable_cloudtrail = true" ∈ splitNl (generate_tfvars_content cInj) ∧
    parseLine (strL "enable_cloudtrail = true") =
      some (strL "enable_cloudtrail", RHSVal.boolv true) ∧
    ((splitNl (generate_tfvars_content cInj)).filter isBoolAssign).length =
      AVAILABLE_MODULES.length + 1 := by
  exact ⟨by decide, by decide, by decide, by decide⟩

/-- Claim C6 (amended): for every config whose region, environment, tag keys
and tag values are free of literal newlines, the boolean assignment lines of
the generated text are exactly one line per registry entry, in registry
order, written with the feature's registered flag name and the lowercase
token for the config's enabled-status (default `false` when the feature is
absent from `c.modules`). -/
theorem module_flag_lines_exact (c : WizardConfig)
    (hr : '\n' ∉ c.region) (he : '\n' ∉ c.environment)
    (ht : ∀ kv ∈ c.tags, '\n' ∉ kv.1 ∧ '\n' ∉ kv.2) :
    (splitNl (generate_tfvars_content c)).filter isBoolAssign =
      AVAILABLE_MODULES.map (fun m =>
        mkAssignLine [] m.var_name [' '] [' ']
          (boolStr (modEnabled c m.name))) := by
  have hsplit : splitNl (generate_tfvars_content c) = tfvarsLines c := by
    rw [generate_tfvars_content]
    refine splitNl_joinNl _ ?_ (tfvarsLines_no_nl c hr he ht)
    rw [tfvarsLines]; exact List.cons_ne_nil _ _
  have hq1 : (mkAssignLine [] (strL "aws_region") [' ', ' '] [' ']
      ('"' :: (c.region ++ ['"']))).getLast? = some '"' := by
    rw [getLast?_mkAssign _ _ _ _ _ (by simp),
      getLast?_cons_of_ne _ _ (by simp),
      getLast?_append_right _ _ (by simp)]
    decide
  have hb1 : isBoolAssign (mkAssignLine [] (strL "aws_region") [' ', ' ']
      [' '] ('"' :: (c.region ++ ['"']))) = false :=
    isBoolAssign_false_of_getLast _ (by rw [hq1]; decide)
  have hq2 : (mkAssignLine [] (strL "environment") [' '] [' ']
      ('"' :: (c.environment ++ ['"']))).getLast? = some '"' := by
    rw [getLast?_mkAssign _ _ _ _ _ (by simp),
      getLast?_cons_of_ne _ _ (by simp),
      getLast?_append_right _ _ (by simp)]
    decide
  have hb2 : isBoolAssign (mkAssignLine [] (strL "environment") [' '] [' ']
      ('"' :: (c.environment ++ ['"']))) = false :=
    isBoolAssign_false_of_getLast _ (by rw [hq2]; decide)
  have hbct : isBoolAssign (mkAssignLine [] (strL "common_tags") [' '] [' ']
      ['{']) = false := by decide
  have hbrace : isBoolAssign ['}'] = false := by decide
  have hmods : List.filter isBoolAssign (AVAILABLE_MODULES.map fun m =>
      mkAssignLine [] m.var_name [' '] [' '] (boolStr (modEnabled c m.name))) =
      AVAILABLE_MODULES.map (fun m =>
        mkAssignLine [] m.var_name [' '] [' ']
          (boolStr (modEnabled c m.name))) := by
    refine List.filter_eq_self.mpr ?_
    intro l hl
    obtain ⟨m, hm, rfl⟩ := List.mem_map.mp hl
    have hall : ∀ mm ∈ AVAILABLE_MODULES, goodModule mm = true := by decide
    have hgm := hall m hm
    simp only [goodModule, Bool.and_eq_true, decide_eq_true_iff,
      List.all_eq_true] at hgm
    obtain ⟨⟨hne, hword⟩, _⟩ := hgm
    have hline := parseLine_mk [] m.var_name [' '] [' ']
      (boolStr (modEnabled c m.name)) (by simp) hne hword (by decide)
      (by decide) (by cases modEnabled c m.name <;> decide)
    rw [isBoolAssign, hline, parseRHS_bool]
    rfl
  have htags : List.filter isBoolAssign (c.tags.map fun kv =>
      mkAssignLine [' ', ' '] kv.1 [' '] [' ']
        ('"' :: (escapeQuotes kv.2 ++ ['"']))) = [] := by
    rw [List.filter_eq_nil]
    intro l hl
    obtain ⟨kv, hkv, rfl⟩ := List.mem_map.mp hl
    have hq : (mkAssignLine [' ', ' '] kv.1 [' '] [' ']
        ('"' :: (escapeQuotes kv.2 ++ ['"']))).getLast? = some '"' := by
      rw [getLast?_mkAssign _ _ _ _ _ (by simp),
        getLast?_cons_of_ne _ _ (by simp),
        getLast?_append_right _ _ (by simp)]
      decide
    simp [isBoolAssign_false_of_getLast _ (by rw [hq]; decide)]
  rw [hsplit, tfvarsLines]
  simp only [List.filter_cons, List.filter_append, List.filter_nil, hb1, hb2,
    hbct, hbrace, Bool.false_eq_true, if_false, hmods, htags]
  simp

/-- Witness for the amended claim C6 at a concrete config. -/
theorem module_flag_lines_exact_witness :
    (splitNl (generate_tfvars_content cRoundTrip)).filter isBoolAssign =
      AVAILABLE_MODULES.map (fun m =>
        mkAssignLine [] m.var_name [' '] [' ']
          (boolStr (modEnabled cRoundTrip m.name))) :=
  module_flag_lines_exact cRoundTrip (by decide) (by decide) (by decide)

/-! ### Claim C9: auto-included tags in `build_config_from_args` -/

/-- The fields of the parsed argparse namespace that
`build_config_from_args` reads (`None` is `none`; `--tag KEY VALUE` pairs
accumulate into `args.tags`). -/
structure CliArgs where
  all_modules : Bool
  region : Option Str
  env : Option Str
  tags : Option (List (Str × Str))

/-- `build_config_from_args` from `wizard/cli.py`: start from the dataclass
defaults, enable every registered module under `--all-modules`, override
region and environment when the argument is truthy (present and non-empty),
reset `config.tags` to the auto-included `Environment`/`ManagedBy` pairs,
then write the user tag pairs on top with `config.tags[key] = value`. -/
def build_config_from_args (args : CliArgs) : WizardConfig :=
  let c0 := defaultWizardConfig
  let m1 := AVAILABLE_MODULES.foldl (fun acc m => dictUpdate acc m.name true)
    c0.modules
  let c1 := if args.all_modules then { c0 with modules := m1 } else c0
  let c2 := match args.region with
    | some r => if r ≠ [] then { c1 with region := r } else c1
    | none => c1
  let c3 := match args.env with
    | some e => if e ≠ [] then { c2 with environment := e } else c2
    | none => c2
  let c4 := { c3 with tags := [(strL "Environment", c3.environment),
                               (strL "ManagedBy", strL "Terraform")] }
  match args.tags with
  | some ts =>
    if ts ≠ [] then { c4 with tags := dictUpdateAll c4.tags ts } else c4
  | none => c4

/-- The user tag pairs `build_config_from_args` folds in (empty when
`--tag` was never given). -/
def effectiveUserTags (args : CliArgs) : List (Str × Str) :=
  (args.tags).getD []

theorem build_config_tags_shape (args : CliArgs) :
    (build_config_from_args args).tags =
      dictUpdateAll
        [(strL "Environment", (build_config_from_args args).environment),
         (strL "ManagedBy", strL "Terraform")]
        (effectiveUserTags args) := by
  obtain ⟨am, reg, env, tgs⟩ := args
  cases tgs with
  | none => rfl
  | some ts =>
    cases ts with
    | nil => rfl
    | cons p ts' => rfl

theorem build_config_environment (args : CliArgs) :
    (build_config_from_args args).environment =
      match args.env with
      | some e => if e ≠ [] then e else strL "dev"
      | none => strL "dev" := by
  obtain ⟨am, reg, env, tgs⟩ := args
  cases am <;> cases reg <;> cases env <;> cases tgs <;>
    simp only [build_config_from_args] <;> (try split_ifs) <;> rfl

/-- Claim C9: for every parsed argument namespace, the built config's tags
map always contains the keys `Environment` and `ManagedBy`; when the user
tag pairs do not mention them, `Environment` maps to the configured
environment (`dev` when `--env` is absent) and `ManagedBy` maps to
`Terraform`; and user-supplied pairs, written after the auto-included
pairs, overwrite them: the last user occurrence of a key is the value
stored under it. -/
theorem build_config_auto_tags (args : CliArgs) :
    (alookup (strL "Environment")
        (build_config_from_args args).tags).isSome = true ∧
    (alookup (strL "ManagedBy")
        (build_config_from_args args).tags).isSome = true ∧
    (strL "Environment" ∉ dictKeys (effectiveUserTags args) →
      alookup (strL "Environment") (build_config_from_args args).tags =
        some (build_config_from_args args).environment) ∧
    (strL "ManagedBy" ∉ dictKeys (effectiveUserTags args) →
      alookup (strL "ManagedBy") (build_config_from_args args).tags =
        some (strL "Terraform")) ∧
    (args.env = none →
      (build_config_from_args args).environment = strL "dev") ∧
    (∀ k v, lastLookup k (effectiveUserTags args) = some v →
      alookup k (build_config_from_args args).tags = some v) := by
  refine ⟨?_, ?_, ?_, ?_, ?_, ?_⟩
  · rw [build_config_tags_shape, alookup_dictUpdateAll]
    cases h : lastLookup (strL "Environment") (effectiveUserTags args)
    · simp [alookup]
    · simp
  · rw [build_config_tags_shape, alookup_dictUpdateAll]
    cases h : lastLookup (strL "ManagedBy") (effectiveUserTags args)
    · simp [alookup, show ¬(strL "Environment" = strL "ManagedBy") from
        by decide]
    · simp
  · intro hnot
    rw [build_config_tags_shape, alookup_dictUpdateAll,
      lastLookup_none_of_not_mem _ _ hnot]
    simp [alookup]
  · intro hnot
    rw [build_config_tags_shape, alookup_dictUpdateAll,
      lastLookup_none_of_not_mem _ _ hnot]
    simp [alookup, show ¬(strL "Environment" = strL "ManagedBy") from
      by decide]
  · intro h
    rw [build_config_environment, h]
  · intro k v hkv
    rw [build_config_tags_shape, alookup_dictUpdateAll, hkv]

/-- Concrete argument namespace: `--env prod`, two `--tag` pairs, the first
overriding the auto-included `Environment` tag. -/
def argsW : CliArgs :=
  { all_modules := false, region := none, env := some (strL "prod"),
    tags := some [(strL "Environment", strL "override"),
                  (strL "Team", strL "sec")] }

/-- Witness for claim C9: a user `Environment` tag overwrites the
auto-included value. -/
theorem build_config_auto_tags_witness :
    alookup (strL "Environment") (build_config_from_args argsW).tags =
      some (strL "override") :=
  (build_config_auto_tags argsW).2.2.2.2.2 (strL "Environment")
    (strL "override") (by decide)
